import Mathlib

/-!
Verification development for the streaming translation core of the
gemini-cli-worker repository (src/gemini-client.ts, src/stream-transformer.ts,
src/helpers/auto-model-switching.ts, src/constants.ts).

Modelling conventions:
* JavaScript strings are modelled as `List Char`; indices are character
  indices (the TypeScript code never splits surrogate pairs in the code
  paths modelled here, so character-level cuts cover the byte/code-unit
  cuts of the original).
* `JSON.parse` is kept abstract: any function `List Char → Option J`.
  A `none` result models a thrown parse error (caught and logged by the
  source, dropping the event).
* Async generators are modelled as functions producing the list of their
  yields, in order.  Each `yield` statement of the source corresponds to
  exactly one element of the produced list.
-/

namespace GeminiWorker

/-! ## Supporting list lemmas (no dependence on the program model) -/

/-- Splitting an appended list at a distinguished element: the split point
falls in the left or in the right part. -/
theorem split_of_append_eq {α : Type} :
    ∀ (l₁ l₂ p q : List α) (x : α), l₁ ++ l₂ = p ++ x :: q →
      (∃ q₀, l₁ = p ++ x :: q₀ ∧ q = q₀ ++ l₂) ∨
      (∃ p₀, p = l₁ ++ p₀ ∧ l₂ = p₀ ++ x :: q) := by
  intro l₁
  induction l₁ with
  | nil =>
    intro l₂ p q x h
    exact Or.inr ⟨p, by simp, by simpa using h⟩
  | cons a l₁ ih =>
    intro l₂ p q x h
    cases p with
    | nil =>
      simp only [List.nil_append, List.cons_append, List.cons.injEq] at h
      exact Or.inl ⟨l₁, by simp [h.1], h.2.symm⟩
    | cons b p =>
      simp only [List.cons_append, List.cons.injEq] at h
      rcases ih l₂ p q x h.2 with ⟨q₀, h1, h2⟩ | ⟨p₀, h1, h2⟩
      · exact Or.inl ⟨q₀, by simp [h.1, h1], h2⟩
      · exact Or.inr ⟨p₀, by simp [h.1, h1], h2⟩

/-! ## SSE frame reassembler (`parseSSEStream`, gemini-client.ts lines 113-150)

The source pipes the byte stream through `TextDecoderStream` and then, per
read, appends to `buffer`, splits on `"\n"`, keeps the trailing (possibly
incomplete) line in `buffer`, and feeds each complete line to the
data-line/blank-line classifier that maintains `objectBuffer`. -/

/-- The complete lines of a character stream together with the trailing
remainder after the last newline.  Mirrors
`const lines = buffer.split("\n"); buffer = lines.pop() || ""`. -/
def completeLines : List Char → List (List Char) × List Char
  | [] => ([], [])
  | c :: rest =>
    let p := completeLines rest
    if c = '\n' then ([] :: p.1, p.2)
    else
      match p.1 with
      | [] => ([], c :: p.2)
      | l :: ls => ((c :: l) :: ls, p.2)

/-- JavaScript `String.prototype.trim`: strip whitespace from both ends. -/
def jsTrim (s : List Char) : List Char :=
  ((s.dropWhile Char.isWhitespace).reverse.dropWhile Char.isWhitespace).reverse

/-- The SSE data-line marker `"data: "`. -/
def sseDataMarker : List Char := "data: ".toList

/-- Per-line processing of `parseSSEStream` (lines 135-148): a blank line
completes the accumulated `objectBuffer` (parsing it and yielding the event
on success, dropping it on a parse error, resetting the buffer either way);
a `"data: "` line appends its payload to `objectBuffer`; other lines are
ignored.  Returns the new `objectBuffer` and the yielded events. -/
def processLine {J : Type} (parse : List Char → Option J) (ob line : List Char) :
    List Char × List J :=
  if jsTrim line = [] then
    if ob ≠ [] then ([], (parse ob).toList) else (ob, [])
  else if sseDataMarker.isPrefixOf line then (ob ++ line.drop 6, [])
  else (ob, [])

/-- Fold `processLine` over a list of complete lines, accumulating events. -/
def processLines {J : Type} (parse : List Char → Option J) (ob : List Char) :
    List (List Char) → List Char × List J
  | [] => (ob, [])
  | l :: ls =>
    let r₁ := processLine parse ob l
    let r₂ := processLines parse r₁.1 ls
    (r₂.1, r₁.2 ++ r₂.2)

/-- The reassembler state between reads: the partial line `buffer` and the
per-event `objectBuffer`. -/
structure SSEState where
  buffer : List Char
  objectBuffer : List Char
deriving DecidableEq

/-- One iteration of the read loop (lines 131-148) on a decoded read
`value`: append to the line buffer, split off the complete lines, process
them. -/
def sseRead {J : Type} (parse : List Char → Option J) (st : SSEState)
    (value : List Char) : SSEState × List J :=
  let split := completeLines (st.buffer ++ value)
  let r := processLines parse st.objectBuffer split.1
  (⟨split.2, r.1⟩, r.2)

/-- End-of-stream handling (lines 120-129): a non-empty trailing
`objectBuffer` is parsed and yielded as a final event. -/
def sseFinish {J : Type} (parse : List Char → Option J) (st : SSEState) : List J :=
  if st.objectBuffer ≠ [] then (parse st.objectBuffer).toList else []

/-- Run the read loop over a list of reads, with an event accumulator
threaded through the state. -/
def sseRunReads {J : Type} (parse : List Char → Option J)
    (s : SSEState × List J) : List (List Char) → SSEState × List J
  | [] => s
  | v :: vs =>
    let r := sseRead parse s.1 v
    sseRunReads parse (r.1, s.2 ++ r.2) vs

/-- `parseSSEStream`: the full sequence of parsed events yielded for a
given sequence of decoded reads. -/
def parseSSEStream {J : Type} (parse : List Char → Option J)
    (reads : List (List Char)) : List J :=
  let r := sseRunReads parse (⟨[], []⟩, []) reads
  r.2 ++ sseFinish parse r.1

/-! ### Read-boundary independence of the reassembler -/

/-- Character-level step: the same machine driven one character at a time.
A newline completes the current line buffer; any other character is
appended to it. -/
def sseCharStep {J : Type} (parse : List Char → Option J)
    (s : (SSEState × List J)) (c : Char) : SSEState × List J :=
  if c = '\n' then
    let r := processLine parse s.1.objectBuffer s.1.buffer
    (⟨[], r.1⟩, s.2 ++ r.2)
  else (⟨s.1.buffer ++ [c], s.1.objectBuffer⟩, s.2)

/-- Drive the character-level machine over a character list. -/
def sseChars {J : Type} (parse : List Char → Option J)
    (s : SSEState × List J) (cs : List Char) : SSEState × List J :=
  cs.foldl (sseCharStep parse) s

theorem completeLines_nlFree {s : List Char} (h : ∀ c ∈ s, c ≠ '\n') :
    completeLines s = ([], s) := by
  induction s with
  | nil => rfl
  | cons c rest ih =>
    have hc : c ≠ '\n' := h c (by simp)
    have := ih (fun x hx => h x (by simp [hx]))
    simp [completeLines, this, hc]

theorem completeLines_buffer_nlFree (s : List Char) :
    ∀ c ∈ (completeLines s).2, c ≠ '\n' := by
  induction s with
  | nil => simp [completeLines]
  | cons c rest ih =>
    by_cases hc : c = '\n'
    · simpa [completeLines, hc] using ih
    · rcases h1 : (completeLines rest).1 with _ | ⟨l, ls⟩
      · intro x hx
        simp only [completeLines, hc, if_neg hc, h1] at hx
        rcases List.mem_cons.mp hx with rfl | hx
        · exact hc
        · exact ih x (by simpa [h1] using hx)
      · intro x hx
        simp only [completeLines, hc, if_neg hc, h1] at hx
        exact ih x (by simpa [h1] using hx)

theorem completeLines_append_nl {p : List Char} (rest : List Char)
    (h : ∀ c ∈ p, c ≠ '\n') :
    completeLines (p ++ '\n' :: rest) =
      (p :: (completeLines rest).1, (completeLines rest).2) := by
  induction p with
  | nil => simp [completeLines]
  | cons c cs ih =>
    have hc : c ≠ '\n' := h c (by simp)
    have := ih (fun x hx => h x (by simp [hx]))
    simp [completeLines, this, hc]

theorem sseRead_eq_chars {J : Type} (parse : List Char → Option J) :
    ∀ (v : List Char) (st : SSEState) (acc : List J),
      (∀ c ∈ st.buffer, c ≠ '\n') →
      ((sseRead parse st v).1, acc ++ (sseRead parse st v).2) =
        sseChars parse (st, acc) v := by
  intro v
  induction v with
  | nil =>
    intro st acc hb
    simp [sseRead, sseChars, completeLines_nlFree hb, processLines]
  | cons c v ih =>
    intro st acc hb
    by_cases hc : c = '\n'
    · subst hc
      have hsplit := completeLines_append_nl v hb
      have h1 : sseRead parse st ('\n' :: v) =
          ((sseRead parse ⟨[], (processLine parse st.objectBuffer st.buffer).1⟩ v).1,
           (processLine parse st.objectBuffer st.buffer).2 ++
             (sseRead parse ⟨[], (processLine parse st.objectBuffer st.buffer).1⟩ v).2) := by
        simp only [sseRead, hsplit, processLines, List.nil_append]
      have hstep : sseChars parse (st, acc) ('\n' :: v) =
          sseChars parse (⟨[], (processLine parse st.objectBuffer st.buffer).1⟩,
            acc ++ (processLine parse st.objectBuffer st.buffer).2) v := by
        simp [sseChars, sseCharStep]
      rw [h1, hstep,
        ← ih ⟨[], (processLine parse st.objectBuffer st.buffer).1⟩
          (acc ++ (processLine parse st.objectBuffer st.buffer).2) (by simp)]
      simp [List.append_assoc]
    · have hb2 : ∀ x ∈ st.buffer ++ [c], x ≠ '\n' := by
        intro x hx
        rcases List.mem_append.mp hx with hx | hx
        · exact hb x hx
        · simp only [List.mem_singleton] at hx
          simpa [hx] using hc
      have harr : st.buffer ++ c :: v = (st.buffer ++ [c]) ++ v := by simp
      have hread : sseRead parse st (c :: v) =
          sseRead parse ⟨st.buffer ++ [c], st.objectBuffer⟩ v := by
        simp only [sseRead, harr]
      have hstep : sseChars parse (st, acc) (c :: v) =
          sseChars parse (⟨st.buffer ++ [c], st.objectBuffer⟩, acc) v := by
        simp [sseChars, sseCharStep, hc]
      rw [hread, hstep, ← ih ⟨st.buffer ++ [c], st.objectBuffer⟩ acc hb2]

theorem sseRead_buffer_nlFree {J : Type} (parse : List Char → Option J)
    (st : SSEState) (v : List Char) :
    ∀ c ∈ (sseRead parse st v).1.buffer, c ≠ '\n' := by
  simpa [sseRead] using completeLines_buffer_nlFree (st.buffer ++ v)

theorem sseRunReads_eq_chars {J : Type} (parse : List Char → Option J) :
    ∀ (reads : List (List Char)) (st : SSEState) (acc : List J),
      (∀ c ∈ st.buffer, c ≠ '\n') →
      sseRunReads parse (st, acc) reads = sseChars parse (st, acc) reads.flatten := by
  intro reads
  induction reads with
  | nil => intro st acc hb; simp [sseRunReads, sseChars]
  | cons v vs ih =>
    intro st acc hb
    simp only [sseRunReads, List.flatten]
    rw [ih (sseRead parse st v).1 (acc ++ (sseRead parse st v).2)
      (sseRead_buffer_nlFree parse st v)]
    have h1 := sseRead_eq_chars parse v st acc hb
    simp only [sseChars] at h1 ⊢
    rw [List.foldl_append, ← h1]

/-- C7: For every character stream and every way of cutting it into reads,
the SSE frame reassembler yields the same sequence of parsed events as
processing the whole stream in a single read.  (`parse` abstracts
`JSON.parse`; reads are cut at arbitrary character offsets, covering cuts
inside a JSON object or inside the `"data: "` marker.) -/
theorem sse_reassembly_read_boundary_independent {J : Type}
    (parse : List Char → Option J) (reads : List (List Char)) :
    parseSSEStream parse reads = parseSSEStream parse [reads.flatten] := by
  unfold parseSSEStream
  rw [sseRunReads_eq_chars parse reads ⟨[], []⟩ [] (by simp)]
  rw [show sseRunReads parse (⟨[], []⟩, []) [reads.flatten] =
      sseChars parse (⟨[], []⟩, []) [reads.flatten].flatten from
    sseRunReads_eq_chars parse [reads.flatten] ⟨[], []⟩ [] (by simp)]
  simp

/-! ### Concrete frame processing (for the malformed-frame and
trailing-buffer claims) -/

theorem jsTrim_cons_ne_nil {c : Char} (h : ¬ c.isWhitespace) (r : List Char) :
    jsTrim (c :: r) ≠ [] := by
  intro hnil
  have h1 : (c :: r).dropWhile Char.isWhitespace = c :: r := by
    simp [List.dropWhile_cons, h]
  simp only [jsTrim, h1, List.reverse_eq_nil_iff] at hnil
  have := (List.dropWhile_eq_nil_iff).mp hnil c (by simp)
  exact h this

theorem isPrefixOf_append_self (p s : List Char) : p.isPrefixOf (p ++ s) = true := by
  induction p with
  | nil => simp [List.isPrefixOf]
  | cons c cs ih => simp [List.isPrefixOf, ih]

theorem drop6_marker (s : List Char) : (sseDataMarker ++ s).drop 6 = s := rfl

theorem processLine_dataLine {J : Type} (parse : List Char → Option J)
    (ob s : List Char) :
    processLine parse ob (sseDataMarker ++ s) = (ob ++ s, []) := by
  have hd : jsTrim (sseDataMarker ++ s) ≠ [] := by
    have h0 : sseDataMarker ++ s = 'd' :: ("ata: ".toList ++ s) := rfl
    rw [h0]
    exact jsTrim_cons_ne_nil (by decide) _
  simp [processLine, hd, isPrefixOf_append_self, drop6_marker]

theorem processLine_blank {J : Type} (parse : List Char → Option J)
    (ob : List Char) (hob : ob ≠ []) :
    processLine parse ob [] = ([], (parse ob).toList) := by
  simp [processLine, jsTrim, hob]

/-- One SSE frame: a data line carrying `s` followed by the blank line that
terminates the event. -/
def sseFrame (s : List Char) : List Char := sseDataMarker ++ s ++ ['\n', '\n']

theorem sseRead_frame {J : Type} (parse : List Char → Option J) (s : List Char)
    (hs : ∀ c ∈ s, c ≠ '\n') (hne : s ≠ []) :
    sseRead parse ⟨[], []⟩ (sseFrame s) = (⟨[], []⟩, (parse s).toList) := by
  have hm : ∀ c ∈ sseDataMarker, c ≠ '\n' := by decide
  have hp : ∀ c ∈ sseDataMarker ++ s, c ≠ '\n' := by
    intro c hc
    rcases List.mem_append.mp hc with hc | hc
    · exact hm c hc
    · exact hs c hc
  have hsplit : completeLines (sseFrame s) = ([sseDataMarker ++ s, []], []) := by
    have h1 := completeLines_append_nl (p := sseDataMarker ++ s) ['\n'] hp
    have h2 : completeLines ['\n'] = ([[]], []) := rfl
    rw [h2] at h1
    simpa [sseFrame, List.append_assoc] using h1
  have hline2 : processLine parse s [] = ([], (parse s).toList) :=
    processLine_blank parse s hne
  simp [sseRead, hsplit, processLines, processLine_dataLine, hline2]

theorem sseChars_append {J : Type} (parse : List Char → Option J)
    (s : SSEState × List J) (a b : List Char) :
    sseChars parse s (a ++ b) = sseChars parse (sseChars parse s a) b := by
  simp [sseChars, List.foldl_append]

theorem sseChars_frame {J : Type} (parse : List Char → Option J)
    (acc : List J) (s : List Char) (hs : ∀ c ∈ s, c ≠ '\n') (hne : s ≠ []) :
    sseChars parse (⟨[], []⟩, acc) (sseFrame s) = (⟨[], []⟩, acc ++ (parse s).toList) := by
  rw [← sseRead_eq_chars parse (sseFrame s) ⟨[], []⟩ acc (by simp)]
  rw [sseRead_frame parse s hs hne]

/-- C8: a malformed-JSON event buffer between two well-formed event buffers
does not abort the sequence: both well-formed events are yielded, in order,
and the malformed one is dropped. -/
theorem sse_malformed_frame_skipped {J : Type} (parse : List Char → Option J)
    (x y z : List Char) (a c : J)
    (hx : ∀ ch ∈ x, ch ≠ '\n') (hy : ∀ ch ∈ y, ch ≠ '\n')
    (hz : ∀ ch ∈ z, ch ≠ '\n')
    (hxne : x ≠ []) (hyne : y ≠ []) (hzne : z ≠ [])
    (hpa : parse x = some a) (hpy : parse y = none) (hpz : parse z = some c) :
    parseSSEStream parse [sseFrame x ++ sseFrame y ++ sseFrame z] = [a, c] := by
  unfold parseSSEStream
  rw [show sseRunReads parse (⟨[], []⟩, ([] : List J))
        [sseFrame x ++ sseFrame y ++ sseFrame z] =
      sseChars parse (⟨[], []⟩, []) (sseFrame x ++ sseFrame y ++ sseFrame z) from by
    simpa using sseRunReads_eq_chars parse [sseFrame x ++ sseFrame y ++ sseFrame z]
      ⟨[], []⟩ [] (by simp)]
  rw [sseChars_append, sseChars_append]
  rw [sseChars_frame parse [] x hx hxne]
  rw [sseChars_frame parse _ y hy hyne]
  rw [sseChars_frame parse _ z hz hzne]
  simp [hpa, hpy, hpz, sseFinish]

/-- C9: when the stream ends with a non-empty accumulated event buffer, that
buffer is parsed and yielded as a final event; in particular a stream ending
with a complete newline-terminated data line (no trailing blank line) still
yields the event encoded on that line. -/
theorem sse_trailing_buffer_yielded {J : Type} (parse : List Char → Option J)
    (x : List Char) (a : J) (st : SSEState)
    (hx : ∀ ch ∈ x, ch ≠ '\n') (hxne : x ≠ []) (hpa : parse x = some a)
    (hob : st.objectBuffer ≠ []) :
    sseFinish parse st = (parse st.objectBuffer).toList ∧
    parseSSEStream parse [sseDataMarker ++ x ++ ['\n']] = [a] := by
  constructor
  · simp [sseFinish, hob]
  · have hm : ∀ c ∈ sseDataMarker, c ≠ '\n' := by decide
    have hp : ∀ c ∈ sseDataMarker ++ x, c ≠ '\n' := by
      intro c hc
      rcases List.mem_append.mp hc with hc | hc
      · exact hm c hc
      · exact hx c hc
    have hsplit : completeLines (sseDataMarker ++ x ++ ['\n']) =
        ([sseDataMarker ++ x], []) := by
      have h1 := completeLines_append_nl (p := sseDataMarker ++ x) [] hp
      simpa [completeLines] using h1
    have hread : sseRead parse ⟨[], []⟩ (sseDataMarker ++ (x ++ ['\n'])) =
        (⟨[], x⟩, []) := by
      rw [← List.append_assoc]
      simp only [sseRead, List.nil_append, hsplit, processLines, processLine_dataLine]
    unfold parseSSEStream
    simp [sseRunReads, hread, sseFinish, hxne, hpa]

/-- Witness for C8: events `1`, malformed `2`, `3` under a small concrete
parse function. -/
theorem sse_malformed_frame_skipped_witness :
    parseSSEStream
      (fun s => if s = ['1'] then some 1 else if s = ['3'] then some 3 else none)
      [sseFrame ['1'] ++ sseFrame ['2'] ++ sseFrame ['3']] = [1, 3] :=
  sse_malformed_frame_skipped _ ['1'] ['2'] ['3'] 1 3
    (by decide) (by decide) (by decide) (by decide) (by decide) (by decide)
    (by decide) (by decide) (by decide)

/-- Witness for C9: a stream that ends on a newline-terminated data line
with no trailing blank line. -/
theorem sse_trailing_buffer_yielded_witness :
    sseFinish (fun s => if s = ['1'] then some 1 else none) ⟨[], ['1']⟩ =
      [1] ∧
    parseSSEStream (fun s => if s = ['1'] then some 1 else none)
      [sseDataMarker ++ ['1'] ++ ['\n']] = [1] :=
  sse_trailing_buffer_yielded _ ['1'] 1 ⟨[], ['1']⟩
    (by decide) (by decide) (by decide) (by decide)

/-! ## Stream chunk data model (src/types.ts `StreamChunk`) -/

/-- `UsageData` (src/types.ts): input/output token counts. -/
structure UsageData where
  inputTokens : Nat
  outputTokens : Nat
deriving DecidableEq

/-- `StreamChunk` (src/types.ts): the tagged union of chunk kinds flowing
from the Gemini client to the OpenAI serializer.  `reasoning` carries
`ReasoningData.reasoning`; the other data payloads are strings. -/
inductive StreamChunk where
  | text (data : List Char)
  | usage (data : UsageData)
  | reasoning (data : List Char)
  | thinking_content (data : List Char)
  | real_thinking (data : List Char)
deriving DecidableEq

/-- The opening thinking delimiter emitted as content (gemini-client.ts
lines 330, 481, 507). -/
def openingDelimiter : List Char := "<thinking>\n".toList

/-- The closing thinking delimiter emitted as content (lines 524, 553). -/
def closingDelimiter : List Char := "\n</thinking>\n\n".toList

/-- Instrumented emission: each `yield` of the generator is one `Emit`.
The two delimiter-emission sites are tagged with their own constructors so
that delimiter emissions can be counted even if an upstream payload happens
to coincide with the delimiter text; `Emit.toChunk` recovers the exact
chunk the source yields. -/
inductive Emit where
  | chunk (c : StreamChunk)
  | openDelim
  | closeDelim
deriving DecidableEq

/-- Project an instrumented emission to the `StreamChunk` the source
actually yields. -/
def Emit.toChunk : Emit → StreamChunk
  | .chunk c => c
  | .openDelim => .thinking_content openingDelimiter
  | .closeDelim => .thinking_content closingDelimiter

/-- Whether an emission is a plain text chunk. -/
def Emit.isTextChunk : Emit → Bool
  | .chunk (.text _) => true
  | _ => false

/-! ## Legacy `<think>` tag handling

The source uses `text.match(/<think>(.*?)<\/think>/s)` (first, lazy,
dot-matches-newline match) and `text.replace(/<think>.*?<\/think>/gs, "")`
(global lazy replace).  `splitFirst pat s` finds the first occurrence of
`pat` in `s`, returning the part before it and the part after it. -/

/-- Split a string at the first occurrence of `pat`: `s = pre ++ pat ++ post`
with `pre` shortest.  `none` when `pat` does not occur. -/
def splitFirst (pat : List Char) : List Char → Option (List Char × List Char)
  | [] => if pat.isPrefixOf ([] : List Char) then some ([], []) else none
  | c :: rest =>
    if pat.isPrefixOf (c :: rest) then some ([], (c :: rest).drop pat.length)
    else (splitFirst pat rest).map (fun pr => (c :: pr.1, pr.2))

/-- Whether `pat` occurs as a substring of `s` (JavaScript
`String.prototype.includes`). -/
def hasSubstr (pat s : List Char) : Bool := (splitFirst pat s).isSome

/-- The legacy opening tag `"<think>"`. -/
def openTag : List Char := "<think>".toList

/-- The legacy closing tag `"</think>"`. -/
def closeTag : List Char := "</think>".toList

/-- The first lazy match of `/<think>(.*?)<\/think>/s`: the text between the
first `"<think>"` and the first `"</think>"` after it.  (If the first
opening tag has no closing tag after it, no later opening tag does either,
so this coincides with the regex engine's left-to-right search.) -/
def thinkMatch (s : List Char) : Option (List Char) :=
  match splitFirst openTag s with
  | none => none
  | some pr =>
    match splitFirst closeTag pr.2 with
    | none => none
    | some qr => some qr.1

/-- `text.replace(/<think>.*?<\/think>/gs, "")`, with an explicit fuel
argument bounding the number of removed tag pairs.  Each removal consumes
at least the two tags (15 characters), so `s.length` is always enough fuel
and the fuel-0 arm is never reached from `removeThinkAll`. -/
def removeThinkAllFuel : Nat → List Char → List Char
  | 0, s => s
  | fuel + 1, s =>
    match splitFirst openTag s with
    | none => s
    | some pr =>
      match splitFirst closeTag pr.2 with
      | none => s
      | some qr => pr.1 ++ removeThinkAllFuel fuel qr.2

/-- Remove every lazy `<think>…</think>` pair, left to right. -/
def removeThinkAll (s : List Char) : List Char := removeThinkAllFuel s.length s

/-! ## Upstream response classifier and thinking-channel state machine
(gemini-client.ts lines 464-575) -/

/-- `GeminiPart` of a response candidate: optional text plus the `thought`
marker (`absent` is modelled as `false`, matching the `=== true` and
truthiness tests of the source; `inlineData`/`fileData` never occur on
response parts). -/
structure GeminiPart where
  text : Option (List Char)
  thought : Bool
deriving DecidableEq

/-- `GeminiUsageMetadata`: optional token counts. -/
structure GeminiUsageMetadata where
  promptTokenCount : Option Nat
  candidatesTokenCount : Option Nat
deriving DecidableEq

/-- One parsed upstream event, reduced to what the loop reads: the parts of
`response.candidates[0].content.parts` (an absent candidate/content/parts
is modelled as `[]`, which the loop equally skips) and
`response.usageMetadata`. -/
structure GeminiEvent where
  parts : List GeminiPart
  usage : Option GeminiUsageMetadata
deriving DecidableEq

/-- The two per-stream flags of `performStreamRequest` (lines 464-465). -/
structure ThinkState where
  hasStartedThinking : Bool
  hasClosedThinking : Bool
deriving DecidableEq

/-- Processing of one part (lines 471-561), yielding the updated flags and
the instrumented emissions, in order. -/
def processPart (realThinkingAsContent needsThinkingClose : Bool)
    (st : ThinkState) (part : GeminiPart) : ThinkState × List Emit :=
  match part.text with
  | none => (st, [])
  | some t =>
    if part.thought && !t.isEmpty then
      -- real thinking content from Gemini (lines 473-497)
      if realThinkingAsContent then
        if !st.hasStartedThinking then
          (⟨true, st.hasClosedThinking⟩,
           [.openDelim, .chunk (.thinking_content t)])
        else (st, [.chunk (.thinking_content t)])
      else (st, [.chunk (.real_thinking t)])
    else if !t.isEmpty && hasSubstr openTag t then
      -- text content containing legacy <think> tags (lines 499-546)
      if realThinkingAsContent then
        let step1 : ThinkState × List Emit :=
          match thinkMatch t with
          | some capture =>
            if !st.hasStartedThinking then
              (⟨true, st.hasClosedThinking⟩,
               [.openDelim, .chunk (.thinking_content capture)])
            else (st, [.chunk (.thinking_content capture)])
          | none => (st, [])
        let nonThinkingContent := jsTrim (removeThinkAll t)
        if !nonThinkingContent.isEmpty then
          if step1.1.hasStartedThinking && !step1.1.hasClosedThinking then
            (⟨step1.1.hasStartedThinking, true⟩,
             step1.2 ++ [.closeDelim, .chunk (.text nonThinkingContent)])
          else (step1.1, step1.2 ++ [.chunk (.text nonThinkingContent)])
        else step1
      else
        let es1 : List Emit :=
          match thinkMatch t with
          | some capture => [.chunk (.real_thinking capture)]
          | none => []
        let nonThinkingContent := jsTrim (removeThinkAll t)
        if !nonThinkingContent.isEmpty then
          (st, es1 ++ [.chunk (.text nonThinkingContent)])
        else (st, es1)
    else if !t.isEmpty && !part.thought && !hasSubstr openTag t then
      -- regular content (lines 548-559)
      if (needsThinkingClose || (realThinkingAsContent && st.hasStartedThinking))
          && !st.hasClosedThinking then
        (⟨st.hasStartedThinking, true⟩, [.closeDelim, .chunk (.text t)])
      else (st, [.chunk (.text t)])
    else (st, [])

/-- Fold `processPart` over the parts of one candidate, in order. -/
def processParts (realThinkingAsContent needsThinkingClose : Bool)
    (st : ThinkState) : List GeminiPart → ThinkState × List Emit
  | [] => (st, [])
  | p :: ps =>
    let r₁ := processPart realThinkingAsContent needsThinkingClose st p
    let r₂ := processParts realThinkingAsContent needsThinkingClose r₁.1 ps
    (r₂.1, r₁.2 ++ r₂.2)

/-- Processing of one upstream event: the parts loop followed by the usage
check (lines 564-574); `promptTokenCount || 0` / `candidatesTokenCount || 0`
become `Option.getD _ 0`. -/
def processEvent (realThinkingAsContent needsThinkingClose : Bool)
    (st : ThinkState) (ev : GeminiEvent) : ThinkState × List Emit :=
  let r := processParts realThinkingAsContent needsThinkingClose st ev.parts
  match ev.usage with
  | some u =>
    (r.1, r.2 ++ [.chunk (.usage ⟨u.promptTokenCount.getD 0, u.candidatesTokenCount.getD 0⟩)])
  | none => r

/-- Fold over the parsed event sequence. -/
def processEvents (realThinkingAsContent needsThinkingClose : Bool)
    (st : ThinkState) : List GeminiEvent → ThinkState × List Emit
  | [] => (st, [])
  | ev :: evs =>
    let r₁ := processEvent realThinkingAsContent needsThinkingClose st ev
    let r₂ := processEvents realThinkingAsContent needsThinkingClose r₁.1 evs
    (r₂.1, r₁.2 ++ r₂.2)

/-- The successful-response body of `performStreamRequest` (lines 464-575):
both flags start `false` for each stream. -/
def performStreamBody (needsThinkingClose realThinkingAsContent : Bool)
    (events : List GeminiEvent) : List Emit :=
  (processEvents realThinkingAsContent needsThinkingClose ⟨false, false⟩ events).2

/-! ### Locating the tag pair in `"<think>A</think>B"` -/

theorem isPrefixOf_take : ∀ {p s : List Char}, p.isPrefixOf s = true →
    s.take p.length = p := by
  intro p
  induction p with
  | nil => intro s _; simp
  | cons c cs ih =>
    intro s h
    cases s with
    | nil => simp [List.isPrefixOf] at h
    | cons d ds =>
      simp only [List.isPrefixOf, Bool.and_eq_true, beq_iff_eq] at h
      simp only [List.length_cons, List.take_succ_cons, List.cons.injEq]
      exact ⟨h.1.symm, ih h.2⟩

theorem take_isPrefixOf : ∀ (n : Nat) (l : List Char), (l.take n).isPrefixOf l = true := by
  intro n
  induction n with
  | zero => intro l; simp [List.isPrefixOf]
  | succ n ih =>
    intro l
    cases l with
    | nil => simp [List.isPrefixOf]
    | cons c cs => simp [List.isPrefixOf, ih]

theorem drop_len_append (p s : List Char) : (p ++ s).drop p.length = s := by
  induction p with
  | nil => simp
  | cons c cs ih => simpa using ih

/-- A pattern has no self-overlap when no nonempty proper suffix of it is
also a prefix of it.  Both legacy tags satisfy this (checked by `decide`). -/
def NoSelfOverlap (pat : List Char) : Prop :=
  ∀ L < pat.length, 0 < L → pat.drop (pat.length - L) ≠ pat.take L

theorem hasSubstr_of_isPrefixOf {pat A : List Char}
    (h : pat.isPrefixOf A = true) : hasSubstr pat A = true := by
  cases A <;> simp [hasSubstr, splitFirst, h]

theorem hasSubstr_cons {pat : List Char} {c : Char} {A : List Char}
    (h : hasSubstr pat A = true) : hasSubstr pat (c :: A) = true := by
  by_cases hp : pat.isPrefixOf (c :: A) = true
  · simp [hasSubstr, splitFirst, hp]
  · simp only [hasSubstr, splitFirst, hp, if_false, Bool.false_eq_true, if_neg hp]
    simpa [hasSubstr] using h

/-- If the pattern is a prefix of `A ++ pat ++ B` with `A` nonempty, then
(for a pattern with no self-overlap) the pattern already occurs inside `A`. -/
theorem isPrefixOf_append_overlap {pat A B : List Char}
    (hno : NoSelfOverlap pat) (hA : A ≠ [])
    (hpre : pat.isPrefixOf (A ++ (pat ++ B)) = true) :
    hasSubstr pat A = true := by
  have ht := isPrefixOf_take hpre
  rcases le_or_lt pat.length A.length with h | h
  · have h2 : (A ++ (pat ++ B)).take pat.length = A.take pat.length := by
      rw [List.take_append_eq_append_take, Nat.sub_eq_zero_of_le h]
      simp
    rw [h2] at ht
    rw [← ht]
    exact hasSubstr_of_isPrefixOf (take_isPrefixOf pat.length A)
  · exfalso
    have hAlen : 0 < A.length := List.length_pos.mpr hA
    have h2 : (A ++ (pat ++ B)).take pat.length =
        A ++ (pat ++ B).take (pat.length - A.length) := by
      rw [List.take_append_eq_append_take]
      congr 1
      exact List.take_of_length_le (Nat.le_of_lt h)
    have h3 : (pat ++ B).take (pat.length - A.length) =
        pat.take (pat.length - A.length) := by
      rw [List.take_append_eq_append_take, Nat.sub_eq_zero_of_le (Nat.sub_le _ _)]
      simp
    rw [h2, h3] at ht
    -- pat = A ++ pat.take L with L = pat.length - A.length
    have hdrop : pat.drop A.length = pat.take (pat.length - A.length) := by
      conv_lhs => rw [← ht]
      exact drop_len_append A _
    have hL2 : pat.length - A.length < pat.length :=
      Nat.sub_lt (Nat.lt_of_le_of_lt (Nat.zero_le _) h) hAlen
    have hL1 : 0 < pat.length - A.length := Nat.sub_pos_of_lt h
    have hsub : pat.length - (pat.length - A.length) = A.length :=
      Nat.sub_sub_self (Nat.le_of_lt h)
    exact hno (pat.length - A.length) hL2 hL1 (by rw [hsub]; exact hdrop)

/-- With no earlier occurrence in `A` and a non-self-overlapping pattern,
the first occurrence of `pat` in `A ++ pat ++ B` is the explicit one. -/
theorem splitFirst_append_pat {pat B : List Char} (hno : NoSelfOverlap pat)
    (hpat : pat ≠ []) :
    ∀ {A : List Char}, hasSubstr pat A = false →
      splitFirst pat (A ++ (pat ++ B)) = some (A, B) := by
  intro A
  induction A with
  | nil =>
    intro _
    cases pat with
    | nil => exact absurd rfl hpat
    | cons p ps =>
      have hpre := isPrefixOf_append_self (p :: ps) B
      have hdrop := drop_len_append (p :: ps) B
      simp only [List.nil_append, List.cons_append, splitFirst]
      rw [if_pos (by simpa [List.cons_append] using hpre)]
      simpa [List.cons_append] using hdrop
  | cons c A ih =>
    intro hA
    have hA2 : hasSubstr pat A = false := by
      cases h2 : hasSubstr pat A with
      | false => rfl
      | true => exact absurd (hasSubstr_cons (c := c) h2) (by simp [hA])
    have hnp : ¬ pat.isPrefixOf (c :: (A ++ (pat ++ B))) = true := by
      intro hp
      have := isPrefixOf_append_overlap (A := c :: A) hno (by simp)
        (by simpa [List.cons_append] using hp)
      simp [hA] at this
    simp only [List.cons_append, splitFirst, List.append_eq]
    rw [if_neg hnp, ih hA2]
    rfl

theorem noSelfOverlap_closeTag : NoSelfOverlap closeTag := by
  unfold NoSelfOverlap
  decide

theorem noSelfOverlap_openTag : NoSelfOverlap openTag := by
  unfold NoSelfOverlap
  decide

theorem removeThinkAllFuel_noOpen {s : List Char}
    (h : hasSubstr openTag s = false) : ∀ f, removeThinkAllFuel f s = s := by
  intro f
  cases f with
  | zero => rfl
  | succ f =>
    have hnone : splitFirst openTag s = none := by
      cases h2 : splitFirst openTag s with
      | none => rfl
      | some pr => simp [hasSubstr, h2] at h
    simp [removeThinkAllFuel, hnone]

/-- C4: a part text of the form `"<think>A</think>B"` (a single closed
legacy tag pair) classifies as a thought-equivalent fragment `A` followed
by a text fragment `trim B` (emitted only when non-empty), in that order —
in metadata mode (first conjunct, for any state/close flag) the fragments
are a `real_thinking` chunk and a text chunk; in thinking-as-content mode
(second conjunct, fresh stream) the same fragments are delivered with the
delimiter protocol around them. -/
theorem legacy_tag_pair_classification (A B : List Char)
    (hA : hasSubstr closeTag A = false) (hB : hasSubstr openTag B = false)
    (needsTC : Bool) (st : ThinkState) :
    processPart false needsTC st ⟨some (openTag ++ (A ++ (closeTag ++ B))), false⟩ =
      (st, .chunk (.real_thinking A) ::
        (if (jsTrim B).isEmpty then [] else [.chunk (.text (jsTrim B))])) ∧
    processPart true needsTC ⟨false, false⟩
        ⟨some (openTag ++ (A ++ (closeTag ++ B))), false⟩ =
      (⟨true, !(jsTrim B).isEmpty⟩,
       .openDelim :: .chunk (.thinking_content A) ::
         (if (jsTrim B).isEmpty then [] else [.closeDelim, .chunk (.text (jsTrim B))])) := by
  set t := openTag ++ (A ++ (closeTag ++ B)) with ht
  have hopen : splitFirst openTag t = some ([], A ++ (closeTag ++ B)) := by
    have := splitFirst_append_pat (B := A ++ (closeTag ++ B))
      noSelfOverlap_openTag (by decide) (A := []) (by decide)
    simpa using this
  have hclose : splitFirst closeTag (A ++ (closeTag ++ B)) = some (A, B) :=
    splitFirst_append_pat noSelfOverlap_closeTag (by decide) hA
  have hmatch : thinkMatch t = some A := by
    simp [thinkMatch, hopen, hclose]
  have hsub : hasSubstr openTag t = true := by
    simp [hasSubstr, hopen]
  have hne : t.isEmpty = false := rfl
  have hremove : removeThinkAll t = B := by
    have hpos : t.length ≠ 0 := by
      simp [ht, openTag]
    obtain ⟨f, hf⟩ := Nat.exists_eq_succ_of_ne_zero hpos
    rw [removeThinkAll, hf]
    simp [removeThinkAllFuel, hopen, hclose, removeThinkAllFuel_noOpen hB]
  constructor
  · simp only [processPart, Bool.false_and, Bool.false_eq_true, if_false,
      hne, hsub, Bool.not_false, Bool.and_self, if_true, hmatch, hremove]
    by_cases hBe : (jsTrim B).isEmpty
    · simp [hBe]
    · simp only [Bool.not_eq_true'] at hBe
      simp [hBe]
  · simp only [processPart, Bool.false_and, Bool.false_eq_true, if_false,
      hne, hsub, Bool.not_false, Bool.and_self, if_true, hmatch, hremove]
    by_cases hBe : (jsTrim B).isEmpty
    · simp [hBe]
    · simp only [Bool.not_eq_true'] at hBe
      simp [hBe]

/-- Witness for C4 at `A = "abc"`, `B = " hi "`. -/
theorem legacy_tag_pair_classification_witness :
    processPart false false ⟨false, false⟩
        ⟨some (openTag ++ ("abc".toList ++ (closeTag ++ " hi ".toList))), false⟩ =
      (⟨false, false⟩,
       [.chunk (.real_thinking "abc".toList), .chunk (.text "hi".toList)]) := by
  have h := (legacy_tag_pair_classification "abc".toList " hi ".toList
    (by decide) (by decide) false ⟨false, false⟩).1
  rw [h]
  decide

/-! ## Synthetic reasoning generator
(`generateReasoningOutput`, gemini-client.ts lines 303-394, and
src/constants.ts) -/

/-- `REASONING_MESSAGES` (constants.ts). -/
def reasoningMessages : List (List Char) :=
  ["🔍 **Analyzing the request: \"{requestPreview}\"**\n\n".toList,
   "🤔 Let me think about this step by step... ".toList,
   "💭 I need to consider the context and provide a comprehensive response. ".toList,
   "🎯 Based on my understanding, I should address the key points while being accurate and helpful. ".toList,
   "✨ Let me formulate a clear and structured answer.\n\n".toList]

/-- The `THINKING_CONTENT_CHUNK_SIZE` constant (constants.ts). -/
def thinkingContentChunkSize : Nat := 15

/-- The placeholder replaced by the request preview. -/
def previewPlaceholder : List Char := "{requestPreview}".toList

/-- JavaScript `String.prototype.replace` with a string pattern: replace the
first occurrence only. -/
def replaceFirst (pat repl s : List Char) : List Char :=
  match splitFirst pat s with
  | some pr => pr.1 ++ repl ++ pr.2
  | none => s

/-- `requestPreview` (line 324): first 100 characters of the user content,
with an ellipsis when truncated. -/
def requestPreview (userContent : List Char) : List Char :=
  userContent.take 100 ++ (if 100 < userContent.length then "...".toList else [])

/-- `fullReasoningText` (lines 335-336): the joined substituted messages. -/
def fullReasoningText (preview : List Char) : List Char :=
  (reasoningMessages.map (replaceFirst previewPlaceholder preview)).flatten

/-- JavaScript `String.prototype.lastIndexOf` for a single character. -/
def lastIndexOfChar (c : Char) : List Char → Option Nat
  | [] => none
  | x :: xs =>
    match lastIndexOfChar c xs with
    | some i => some (i + 1)
    | none => if x = c then some 0 else none

/-- The `goodBreaks` characters (line 352), in iteration order. -/
def goodBreaks : List Char := [' ', '\n', '.', ',', '!', '?', ';', ':']

/-- The for-loop of lines 354-361: the first break character whose last
index in the search window exceeds `0.7 * THINKING_CONTENT_CHUNK_SIZE`
(i.e. is `≥ 11`) determines the chunk end; otherwise the default chunk
size 15 stands.  (`lastIndexOf` returning `-1` is the `none` case.) -/
def findBreakEnd (searchSpace : List Char) : List Char → Nat
  | [] => thinkingContentChunkSize
  | c :: cs =>
    match lastIndexOfChar c searchSpace with
    | some i => if 10 < i then i + 1 else findBreakEnd searchSpace cs
    | none => findBreakEnd searchSpace cs

/-- The chunk-splitting while-loop (lines 340-365), with fuel bounding the
iteration count.  Every iteration consumes at least one character (the
chunk end is at least 12), so fuel `s.length` always suffices and the
fuel-0 arm is unreachable from `chunkify`. -/
def chunkifyFuel : Nat → List Char → List (List Char)
  | 0, _ => []
  | fuel + 1, s =>
    if s.isEmpty then []
    else if s.length ≤ thinkingContentChunkSize then [s]
    else
      let searchSpace := s.take (thinkingContentChunkSize + 10)
      let chunkEnd := findBreakEnd searchSpace goodBreaks
      s.take chunkEnd :: chunkifyFuel fuel (s.drop chunkEnd)

/-- Split the reasoning text into streaming chunks. -/
def chunkify (s : List Char) : List (List Char) := chunkifyFuel s.length s

/-- `generateReasoningOutput` (lines 303-394) as its emission sequence: in
content mode one opening delimiter followed by the reasoning text chunks as
`thinking_content` (the closing tag is deliberately not emitted here); in
metadata mode one `reasoning` chunk per substituted message. -/
def generateReasoningOutput (userContent : List Char)
    (streamAsContent : Bool) : List Emit :=
  let preview := requestPreview userContent
  if streamAsContent then
    .openDelim ::
      (chunkify (fullReasoningText preview)).map
        (fun c => .chunk (.thinking_content c))
  else
    (reasoningMessages.map (replaceFirst previewPlaceholder preview)).map
      (fun m => .chunk (.reasoning m))

/-! ## Fallback/retry controller
(`performStreamRequest` lines 399-458, `AutoModelSwitchingHelper`,
constants `AUTO_SWITCH_MODEL_MAP` and `RATE_LIMIT_STATUS_CODES`) -/

/-- The upstream request: the model id plus the rest of the JSON body,
opaque here (`project`, `request.contents`, `generationConfig`, ...). -/
structure StreamRequest where
  model : List Char
  payload : List Char
deriving DecidableEq

/-- One upstream `fetch` result: the HTTP status and (for 2xx) the parsed
event sequence its SSE body decodes to. -/
structure UpstreamResponse where
  status : Nat
  events : List GeminiEvent
deriving DecidableEq

/-- The auth-manager side effects the controller can invoke, plus the
fetches it performs (recording the exact request of each attempt). -/
inductive StrAction where
  | fetch (req : StreamRequest)
  | clearTokenCache
  | initializeAuth
deriving DecidableEq

/-- The environment flag read by `AutoModelSwitchingHelper.isEnabled`. -/
structure SwitchEnv where
  enableAutoModelSwitching : Bool
deriving DecidableEq

/-- `AUTO_SWITCH_MODEL_MAP` (constants.ts): pro falls back to flash. -/
def autoSwitchModelMap (m : List Char) : Option (List Char) :=
  if m = "gemini-2.5-pro".toList then some "gemini-2.5-flash".toList else none

/-- `RATE_LIMIT_STATUS_CODES.includes(status)` (constants.ts 429/503). -/
def isRateLimitStatus (s : Nat) : Bool := s = 429 || s = 503

/-- `AutoModelSwitchingHelper.createSwitchNotification`. -/
def createSwitchNotification (originalModel fallbackModel : List Char) : List Char :=
  "[Auto-switched from ".toList ++ originalModel ++ " to ".toList ++
    fallbackModel ++ " due to rate limiting]\n\n".toList

/-- `Response.ok`: status in the 2xx range. -/
def statusOk (s : Nat) : Bool := decide (200 ≤ s ∧ s < 300)

/-- `performStreamRequest` (lines 399-458 wrapping 464-575), as a function
of the upstream responses (`fetchResp k` is the result of the `k`-th fetch
performed).  Returns the auth/fetch action trace, the emission trace, and
`some status` when the source throws `Stream request failed: <status>`.
`fuel` bounds the recursion depth; the retry flag guarantees depth ≤ 1, so
fuel 2 at the entry point makes the fuel-0 arm unreachable. -/
def performStreamRequestF (env : SwitchEnv) (fetchResp : Nat → UpstreamResponse) :
    Nat → Nat → StreamRequest → Bool → Bool → Bool → Option (List Char) →
      List StrAction × List Emit × Option Nat
  | 0, _, _, _, _, _, _ => ([], [], none)
  | fuel + 1, k, streamRequest, needsThinkingClose, isRetry, realThinkingAsContent,
      originalModel =>
    let response := fetchResp k
    if !statusOk response.status then
      if response.status = 401 && !isRetry then
        -- clear the token cache, re-authenticate, retry once (lines 416-422)
        let r := performStreamRequestF env fetchResp fuel (k + 1) streamRequest
          needsThinkingClose true realThinkingAsContent originalModel
        (.fetch streamRequest :: .clearTokenCache :: .initializeAuth :: r.1,
         r.2.1, r.2.2)
      else if isRateLimitStatus response.status && !isRetry && originalModel.isSome then
        match originalModel with
        | some om =>
          match autoSwitchModelMap om with
          | some fallbackModel =>
            if env.enableAutoModelSwitching then
              -- switch to the fallback model (lines 425-452)
              let fallbackRequest : StreamRequest := ⟨fallbackModel, streamRequest.payload⟩
              let r := performStreamRequestF env fetchResp fuel (k + 1) fallbackRequest
                needsThinkingClose true realThinkingAsContent originalModel
              (.fetch streamRequest :: r.1,
               .chunk (.text (createSwitchNotification om fallbackModel)) :: r.2.1,
               r.2.2)
            else ([.fetch streamRequest], [], some response.status)
          | none => ([.fetch streamRequest], [], some response.status)
        | none => ([.fetch streamRequest], [], some response.status)
      else ([.fetch streamRequest], [], some response.status)
    else
      ([.fetch streamRequest],
       performStreamBody needsThinkingClose realThinkingAsContent response.events,
       none)

/-- The controller as entered from `streamContent` (attempt 0, not a retry). -/
def performStreamRequest (env : SwitchEnv) (fetchResp : Nat → UpstreamResponse)
    (streamRequest : StreamRequest) (needsThinkingClose realThinkingAsContent : Bool)
    (originalModel : Option (List Char)) : List StrAction × List Emit × Option Nat :=
  performStreamRequestF env fetchResp 2 0 streamRequest needsThinkingClose false
    realThinkingAsContent originalModel

/-! ## `streamContent` (gemini-client.ts lines 235-298)

The flags are read from the environment:
`isThinkingModel = geminiCliModels[modelId]?.thinking`,
`isFakeThinkingEnabled = ENABLE_FAKE_THINKING === "true"`,
`streamThinkingAsContent = STREAM_THINKING_AS_CONTENT === "true"`,
`includeReasoning = options?.includeReasoning || false`.
The synthetic prelude runs only for thinking models with fake thinking
enabled and reasoning not requested; `needsThinkingClose` is set to
`streamThinkingAsContent` exactly in that case.  The body runs with
`realThinkingAsContent = includeReasoning && streamThinkingAsContent` and
`originalModel = modelId`. -/
def streamContentRun (env : SwitchEnv) (fetchResp : Nat → UpstreamResponse)
    (modelId payload : List Char)
    (isThinkingModel isFakeThinkingEnabled streamThinkingAsContent includeReasoning : Bool)
    (userContent : List Char) : List StrAction × List Emit × Option Nat :=
  let fakePhase := isThinkingModel && isFakeThinkingEnabled && !includeReasoning
  let fakeChunks := if fakePhase then
    generateReasoningOutput userContent streamThinkingAsContent else []
  let needsThinkingClose := fakePhase && streamThinkingAsContent
  let r := performStreamRequest env fetchResp ⟨modelId, payload⟩ needsThinkingClose
    (includeReasoning && streamThinkingAsContent) (some modelId)
  (r.1, fakeChunks ++ r.2.1, r.2.2)

/-- C5: a 401 on attempt 0 invalidates the cached credential,
re-authenticates, and replays the identical request exactly once; a second
401 is fatal with status 401, while a 200 replay gives the caller only the
successful body. -/
theorem auth_retry_once (env : SwitchEnv) (fetchResp : Nat → UpstreamResponse)
    (req : StreamRequest) (ndc rac : Bool) (om : Option (List Char))
    (h0 : (fetchResp 0).status = 401) :
    ((fetchResp 1).status = 401 →
      performStreamRequest env fetchResp req ndc rac om =
        ([.fetch req, .clearTokenCache, .initializeAuth, .fetch req], [], some 401)) ∧
    ((fetchResp 1).status = 200 →
      performStreamRequest env fetchResp req ndc rac om =
        ([.fetch req, .clearTokenCache, .initializeAuth, .fetch req],
         performStreamBody ndc rac (fetchResp 1).events, none)) := by
  constructor <;> intro h1 <;>
    simp [performStreamRequest, performStreamRequestF, statusOk,
      isRateLimitStatus, h0, h1]

/-- C6: a rate-limit status (429/503) on attempt 0 with a configured
fallback model and the feature enabled emits exactly one switch
notification before any fallback content, replays with the fallback model
id, and treats a second rate-limit on the fallback attempt as fatal. -/
theorem rate_limit_fallback_once (env : SwitchEnv)
    (fetchResp : Nat → UpstreamResponse) (req : StreamRequest)
    (ndc rac : Bool) (om fm : List Char)
    (hs : isRateLimitStatus (fetchResp 0).status = true)
    (hfb : autoSwitchModelMap om = some fm)
    (hen : env.enableAutoModelSwitching = true) :
    ((fetchResp 1).status = 200 →
      performStreamRequest env fetchResp req ndc rac (some om) =
        ([.fetch req, .fetch ⟨fm, req.payload⟩],
         .chunk (.text (createSwitchNotification om fm)) ::
           performStreamBody ndc rac (fetchResp 1).events,
         none)) ∧
    (isRateLimitStatus (fetchResp 1).status = true →
      performStreamRequest env fetchResp req ndc rac (some om) =
        ([.fetch req, .fetch ⟨fm, req.payload⟩],
         [.chunk (.text (createSwitchNotification om fm))],
         some (fetchResp 1).status)) := by
  have hs0 : (fetchResp 0).status = 429 ∨ (fetchResp 0).status = 503 := by
    simpa [isRateLimitStatus] using hs
  constructor
  · intro h1
    rcases hs0 with h0 | h0 <;>
      simp [performStreamRequest, performStreamRequestF, statusOk,
        isRateLimitStatus, h0, h1, hfb, hen]
  · intro h1
    have hs1 : (fetchResp 1).status = 429 ∨ (fetchResp 1).status = 503 := by
      simpa [isRateLimitStatus] using h1
    rcases hs0 with h0 | h0 <;> rcases hs1 with h1a | h1a <;>
      simp [performStreamRequest, performStreamRequestF, statusOk,
        isRateLimitStatus, h0, h1a, hfb, hen]

/-- Witness for C5: 401 then 200. -/
theorem auth_retry_once_witness :
    performStreamRequest ⟨false⟩
      (fun k => if k = 0 then ⟨401, []⟩ else ⟨200, []⟩)
      ⟨"m".toList, []⟩ false false none =
      ([.fetch ⟨"m".toList, []⟩, .clearTokenCache, .initializeAuth,
        .fetch ⟨"m".toList, []⟩], [], none) :=
  (auth_retry_once ⟨false⟩
    (fun k => if k = 0 then ⟨401, []⟩ else ⟨200, []⟩)
    ⟨"m".toList, []⟩ false false none rfl).2 rfl

/-- Witness for C6: 429 on the pro model with switching enabled, then 200. -/
theorem rate_limit_fallback_once_witness :
    performStreamRequest ⟨true⟩
      (fun k => if k = 0 then ⟨429, []⟩ else ⟨200, []⟩)
      ⟨"gemini-2.5-pro".toList, []⟩ false false (some "gemini-2.5-pro".toList) =
      ([.fetch ⟨"gemini-2.5-pro".toList, []⟩,
        .fetch ⟨"gemini-2.5-flash".toList, []⟩],
       [.chunk (.text (createSwitchNotification "gemini-2.5-pro".toList
          "gemini-2.5-flash".toList))],
       none) :=
  (rate_limit_fallback_once ⟨true⟩
    (fun k => if k = 0 then ⟨429, []⟩ else ⟨200, []⟩)
    ⟨"gemini-2.5-pro".toList, []⟩ false false
    "gemini-2.5-pro".toList "gemini-2.5-flash".toList rfl rfl rfl).1 rfl

/-! ## C1: delimiter emissions are bounded by the state flags -/

theorem processPart_counts (rac ndc : Bool) (st : ThinkState) (p : GeminiPart) :
    (processPart rac ndc st p).2.count .openDelim + st.hasStartedThinking.toNat =
      (processPart rac ndc st p).1.hasStartedThinking.toNat ∧
    (processPart rac ndc st p).2.count .closeDelim + st.hasClosedThinking.toNat =
      (processPart rac ndc st p).1.hasClosedThinking.toNat := by
  rcases p with ⟨text, thought⟩
  rcases st with ⟨s1, s2⟩
  cases text with
  | none => simp [processPart]
  | some t =>
    simp only [processPart]
    rcases hm : thinkMatch t with _ | cap <;>
      cases thought <;> cases rac <;> cases s1 <;> cases s2 <;>
      simp [hm, List.count_cons, List.count_append] <;>
      split_ifs <;>
      simp_all [List.count_cons, List.count_append]

theorem processPart_noOpen_of_notRac (ndc : Bool) (st : ThinkState) (p : GeminiPart) :
    (processPart false ndc st p).1.hasStartedThinking = st.hasStartedThinking := by
  rcases p with ⟨text, thought⟩
  rcases st with ⟨s1, s2⟩
  cases text with
  | none => simp [processPart]
  | some t =>
    simp only [processPart]
    rcases hm : thinkMatch t with _ | cap <;>
      cases thought <;> cases s1 <;> cases s2 <;>
      simp [hm] <;> split_ifs <;> simp_all

theorem processParts_counts (rac ndc : Bool) :
    ∀ (ps : List GeminiPart) (st : ThinkState),
    (processParts rac ndc st ps).2.count .openDelim + st.hasStartedThinking.toNat =
      (processParts rac ndc st ps).1.hasStartedThinking.toNat ∧
    (processParts rac ndc st ps).2.count .closeDelim + st.hasClosedThinking.toNat =
      (processParts rac ndc st ps).1.hasClosedThinking.toNat := by
  intro ps
  induction ps with
  | nil => intro st; simp [processParts]
  | cons p ps ih =>
    intro st
    have h1 := processPart_counts rac ndc st p
    have h2 := ih (processPart rac ndc st p).1
    simp only [processParts, List.count_append]
    constructor
    · have := h1.1; have := h2.1; omega
    · have := h1.2; have := h2.2; omega

theorem processEvent_counts (rac ndc : Bool) (st : ThinkState) (ev : GeminiEvent) :
    (processEvent rac ndc st ev).2.count .openDelim + st.hasStartedThinking.toNat =
      (processEvent rac ndc st ev).1.hasStartedThinking.toNat ∧
    (processEvent rac ndc st ev).2.count .closeDelim + st.hasClosedThinking.toNat =
      (processEvent rac ndc st ev).1.hasClosedThinking.toNat := by
  have h := processParts_counts rac ndc ev.parts st
  rcases ev with ⟨parts, usage⟩
  cases usage <;>
    simpa [processEvent, List.count_append, List.count_cons] using h

theorem processEvents_counts (rac ndc : Bool) :
    ∀ (evs : List GeminiEvent) (st : ThinkState),
    (processEvents rac ndc st evs).2.count .openDelim + st.hasStartedThinking.toNat =
      (processEvents rac ndc st evs).1.hasStartedThinking.toNat ∧
    (processEvents rac ndc st evs).2.count .closeDelim + st.hasClosedThinking.toNat =
      (processEvents rac ndc st evs).1.hasClosedThinking.toNat := by
  intro evs
  induction evs with
  | nil => intro st; simp [processEvents]
  | cons ev evs ih =>
    intro st
    have h1 := processEvent_counts rac ndc st ev
    have h2 := ih (processEvent rac ndc st ev).1
    simp only [processEvents, List.count_append]
    constructor
    · have := h1.1; have := h2.1; omega
    · have := h1.2; have := h2.2; omega

theorem performStreamBody_counts (ndc rac : Bool) (events : List GeminiEvent) :
    (performStreamBody ndc rac events).count .openDelim ≤ 1 ∧
    (performStreamBody ndc rac events).count .closeDelim ≤ 1 := by
  have h := processEvents_counts rac ndc events ⟨false, false⟩
  unfold performStreamBody
  have hs : ((processEvents rac ndc ⟨false, false⟩ events).1.hasStartedThinking).toNat ≤ 1 := by
    cases (processEvents rac ndc ⟨false, false⟩ events).1.hasStartedThinking <;> simp
  have hc : ((processEvents rac ndc ⟨false, false⟩ events).1.hasClosedThinking).toNat ≤ 1 := by
    cases (processEvents rac ndc ⟨false, false⟩ events).1.hasClosedThinking <;> simp
  have h1 := h.1
  have h2 := h.2
  simp only [Bool.toNat_false] at h1 h2
  omega

theorem processParts_noOpen (ndc : Bool) :
    ∀ (ps : List GeminiPart) (st : ThinkState),
    (processParts false ndc st ps).1.hasStartedThinking = st.hasStartedThinking := by
  intro ps
  induction ps with
  | nil => intro st; simp [processParts]
  | cons p ps ih =>
    intro st
    simp only [processParts]
    rw [ih, processPart_noOpen_of_notRac]

theorem processEvents_noOpen (ndc : Bool) :
    ∀ (evs : List GeminiEvent) (st : ThinkState),
    (processEvents false ndc st evs).1.hasStartedThinking = st.hasStartedThinking := by
  intro evs
  induction evs with
  | nil => intro st; simp [processEvents]
  | cons ev evs ih =>
    intro st
    have hev : (processEvent false ndc st ev).1.hasStartedThinking =
        st.hasStartedThinking := by
      rcases ev with ⟨parts, usage⟩
      cases usage <;> simp [processEvent, processParts_noOpen]
    simp only [processEvents]
    rw [ih, hev]

theorem performStreamBody_noOpen (ndc : Bool) (events : List GeminiEvent) :
    (performStreamBody ndc false events).count .openDelim = 0 := by
  have h := (processEvents_counts false ndc events ⟨false, false⟩).1
  rw [processEvents_noOpen] at h
  simpa [performStreamBody] using h

theorem performStreamRequestF_counts (env : SwitchEnv)
    (fetchResp : Nat → UpstreamResponse) :
    ∀ (fuel k : Nat) (req : StreamRequest) (ndc retry rac : Bool)
      (om : Option (List Char)),
    ((performStreamRequestF env fetchResp fuel k req ndc retry rac om).2.1.count
        .openDelim ≤ 1) ∧
    ((performStreamRequestF env fetchResp fuel k req ndc retry rac om).2.1.count
        .closeDelim ≤ 1) ∧
    (rac = false →
      (performStreamRequestF env fetchResp fuel k req ndc retry rac om).2.1.count
        .openDelim = 0) := by
  intro fuel
  induction fuel with
  | zero =>
    intro k req ndc retry rac om
    simp [performStreamRequestF]
  | succ fuel ih =>
    intro k req ndc retry rac om
    simp only [performStreamRequestF]
    split
    · split
      · -- 401 retry branch: emissions are those of the retried attempt
        simpa using ih (k + 1) req ndc true rac om
      · split
        · split
          · split
            · split
              · -- fallback branch: notification text chunk then retried attempt
                simpa [List.count_cons] using
                  ih (k + 1) _ ndc true rac _
              · simp
            · simp
          · simp
        · simp
    · -- successful response: the body
      simp only []
      refine ⟨(performStreamBody_counts ndc rac (fetchResp k).events).1,
        (performStreamBody_counts ndc rac (fetchResp k).events).2, ?_⟩
      intro hrac
      subst hrac
      exact performStreamBody_noOpen ndc (fetchResp k).events

theorem count_delim_map_chunk (g : List Char → StreamChunk)
    (l : List (List Char)) (e : Emit) (he : ∀ c, e ≠ .chunk c) :
    (l.map (fun m => Emit.chunk (g m))).count e = 0 := by
  rw [List.count_eq_zero]
  intro hmem
  rcases List.mem_map.mp hmem with ⟨m, _, hm⟩
  exact he (g m) hm.symm

theorem generateReasoningOutput_counts (u : List Char) (sAC : Bool) :
    (generateReasoningOutput u sAC).count .openDelim = (if sAC then 1 else 0) ∧
    (generateReasoningOutput u sAC).count .closeDelim = 0 := by
  have h1 := count_delim_map_chunk (fun c => StreamChunk.thinking_content c)
    (chunkify (fullReasoningText (requestPreview u))) Emit.openDelim (by intro c; simp)
  have h2 := count_delim_map_chunk (fun c => StreamChunk.thinking_content c)
    (chunkify (fullReasoningText (requestPreview u))) Emit.closeDelim (by intro c; simp)
  have h3 := count_delim_map_chunk (fun m => StreamChunk.reasoning m)
    (reasoningMessages.map (replaceFirst previewPlaceholder (requestPreview u)))
    Emit.openDelim (by intro c; simp)
  have h4 := count_delim_map_chunk (fun m => StreamChunk.reasoning m)
    (reasoningMessages.map (replaceFirst previewPlaceholder (requestPreview u)))
    Emit.closeDelim (by intro c; simp)
  cases sAC
  · constructor
    · simpa [generateReasoningOutput, List.map_map] using h3
    · simpa [generateReasoningOutput, List.map_map] using h4
  · simp [generateReasoningOutput, List.count_cons, h1, h2]

/-- C1: per stream (one `performStreamRequest` call together with any
synthetic-thinking prelude, as composed by `streamContent`), at most one
opening-delimiter fragment and at most one closing-delimiter fragment are
emitted, for every flag configuration, upstream behaviour, and event
sequence. -/
theorem thinking_delimiters_at_most_once (env : SwitchEnv)
    (fetchResp : Nat → UpstreamResponse) (modelId payload : List Char)
    (iTM iF sAC incR : Bool) (userContent : List Char) :
    ((streamContentRun env fetchResp modelId payload iTM iF sAC incR
        userContent).2.1.count .openDelim ≤ 1) ∧
    ((streamContentRun env fetchResp modelId payload iTM iF sAC incR
        userContent).2.1.count .closeDelim ≤ 1) := by
  simp only [streamContentRun, performStreamRequest, List.count_append]
  by_cases hFP : (iTM && iF && !incR) = true
  · have hincR : incR = false := by
      have h := hFP
      simp only [Bool.and_eq_true, Bool.not_eq_true'] at h
      exact h.2
    have hctrl := performStreamRequestF_counts env fetchResp 2 0
      ⟨modelId, payload⟩ sAC false (incR && sAC) (some modelId)
    have hopen0 : (performStreamRequestF env fetchResp 2 0 ⟨modelId, payload⟩
        sAC false (incR && sAC) (some modelId)).2.1.count .openDelim = 0 :=
      hctrl.2.2 (by simp [hincR])
    have hgen := generateReasoningOutput_counts userContent sAC
    simp only [hFP, if_true, Bool.true_and]
    constructor
    · rw [hgen.1, hopen0]
      cases sAC <;> simp
    · rw [hgen.2]
      simpa using hctrl.2.1
  · have hb : (iTM && iF && !incR) = false := by simpa using hFP
    have hctrl := performStreamRequestF_counts env fetchResp 2 0
      ⟨modelId, payload⟩ false false (incR && sAC) (some modelId)
    simp only [hb, Bool.false_and, Bool.false_eq_true, if_false, List.count_nil]
    exact ⟨by simpa using hctrl.1, by simpa using hctrl.2.1⟩

/-! ## Downstream serializer
(`createOpenAIStreamTransformer`, src/stream-transformer.ts) -/

/-- `OpenAIDelta`: the delta payload of one outgoing chunk.  The fields
`reasoning_content` (always `null`) and `tool_calls` (always `null`) are
constants in the source and elided. -/
structure OpenAIDelta where
  role : Option (List Char)
  content : Option (List Char)
  reasoning : Option (List Char)
deriving DecidableEq

/-- One outgoing chunk: stable id, fixed creation time, echoed model,
delta, and `finish_reason` (`none` until the terminal chunk). -/
structure OpenAIChunkOut where
  id : List Char
  created : Nat
  model : List Char
  delta : OpenAIDelta
  finishReason : Option (List Char)
deriving DecidableEq

/-- An item of the outgoing SSE stream: a serialized chunk or the final
`[DONE]` sentinel line. -/
inductive DownstreamItem where
  | chunk (c : OpenAIChunkOut)
  | done
deriving DecidableEq

/-- The `transform` callback for a single `StreamChunk`, with the
`firstChunk` flag threaded through; returns the updated flag and the
enqueued items.  Empty-string data is skipped by the `chunk.data &&`
truthiness guards; `usage` chunks are intentionally not forwarded. -/
def transformChunk (id : List Char) (created : Nat) (model : List Char)
    (firstChunk : Bool) (c : StreamChunk) : Bool × List DownstreamItem :=
  match c with
  | .text d =>
    if d.isEmpty then (firstChunk, [])
    else
      (false,
       [.chunk ⟨id, created, model,
         ⟨if firstChunk then some "assistant".toList else none, some d, none⟩, none⟩])
  | .thinking_content d =>
    if d.isEmpty then (firstChunk, [])
    else
      (false,
       [.chunk ⟨id, created, model,
         ⟨if firstChunk then some "assistant".toList else none, some d, none⟩, none⟩])
  | .real_thinking d =>
    if d.isEmpty then (firstChunk, [])
    else
      (firstChunk,
       [.chunk ⟨id, created, model, ⟨none, none, some d⟩, none⟩])
  | .reasoning r =>
    (firstChunk, [.chunk ⟨id, created, model, ⟨none, none, some r⟩, none⟩])
  | .usage _ => (firstChunk, [])

/-- Fold the transform over the chunk sequence. -/
def transformChunks (id : List Char) (created : Nat) (model : List Char)
    (firstChunk : Bool) : List StreamChunk → List DownstreamItem
  | [] => []
  | c :: cs =>
    let r := transformChunk id created model firstChunk c
    r.2 ++ transformChunks id created model r.1 cs

/-- `createOpenAIStreamTransformer`: the whole outgoing item sequence for
a given input chunk sequence (`id`/`created` are the per-stream constants
generated once at construction), ending with the finish chunk and the
`[DONE]` sentinel emitted by `flush`. -/
def createOpenAIStreamTransformer (id : List Char) (created : Nat)
    (model : List Char) (chunks : List StreamChunk) : List DownstreamItem :=
  transformChunks id created model true chunks ++
    [.chunk ⟨id, created, model, ⟨none, none, none⟩, some "stop".toList⟩, .done]

/-- Whether an outgoing item carries the role announcement. -/
def hasRoleItem : DownstreamItem → Bool
  | .chunk c => c.delta.role.isSome
  | .done => false

/-- Whether an outgoing item carries a content delta (text or
thinking-as-content). -/
def hasContentItem : DownstreamItem → Bool
  | .chunk c => c.delta.content.isSome
  | .done => false

/-- Content-bearing in the sense of the specification: a text,
thinking-as-content, or reasoning delta.  (Modelled from the spec's words,
for stating the original claim.) -/
def contentBearingItem : DownstreamItem → Bool
  | .chunk c => c.delta.content.isSome || c.delta.reasoning.isSome
  | .done => false

/-! ## Non-streaming completion (`getCompletion`, gemini-client.ts 581-626) -/

/-- The chunk-collection loop of `getCompletion` (lines 594-605): text
chunks are concatenated, each usage chunk overwrites the recorded usage,
all other chunk kinds are skipped. -/
def getCompletionFold (content : List Char) (usage : Option UsageData) :
    List StreamChunk → List Char × Option UsageData
  | [] => (content, usage)
  | c :: cs =>
    match c with
    | .text d => getCompletionFold (content ++ d) usage cs
    | .usage u => getCompletionFold content (some u) cs
    | _ => getCompletionFold content usage cs

/-- The returned `{ content, usage }` of a successful `getCompletion`. -/
def getCompletion (chunks : List StreamChunk) : List Char × Option UsageData :=
  getCompletionFold [] none chunks

/-- The text payload of a chunk, when it is a text chunk. -/
def chunkTextData : StreamChunk → Option (List Char)
  | .text d => some d
  | _ => none

/-- The usage payload of a chunk, when it is a usage chunk. -/
def chunkUsageData : StreamChunk → Option UsageData
  | .usage u => some u
  | _ => none

/-- Overwrite-fold of usage snapshots, as `getCompletion` performs it. -/
def lastUsage (usage : Option UsageData) : List UsageData → Option UsageData
  | [] => usage
  | u :: us => lastUsage (some u) us

theorem lastUsage_some_eq_getLast :
    ∀ (l : List UsageData) (v : UsageData),
      lastUsage (some v) l = (v :: l).getLast? := by
  intro l
  induction l with
  | nil => intro v; simp [lastUsage]
  | cons y ys ih =>
    intro v
    rw [show lastUsage (some v) (y :: ys) = lastUsage (some y) ys from rfl, ih]
    simp [List.getLast?_cons_cons]

theorem lastUsage_none_eq_getLast (l : List UsageData) :
    lastUsage none l = l.getLast? := by
  cases l with
  | nil => rfl
  | cons x xs =>
    rw [show lastUsage none (x :: xs) = lastUsage (some x) xs from rfl]
    exact lastUsage_some_eq_getLast xs x

theorem getCompletionFold_spec :
    ∀ (cs : List StreamChunk) (content : List Char) (usage : Option UsageData),
      getCompletionFold content usage cs =
        (content ++ (cs.filterMap chunkTextData).flatten,
         lastUsage usage (cs.filterMap chunkUsageData)) := by
  intro cs
  induction cs with
  | nil => intro content usage; simp [getCompletionFold, lastUsage]
  | cons c cs ih =>
    intro content usage
    cases c with
    | text d => simp [getCompletionFold, ih, chunkTextData, chunkUsageData]
    | usage u => simp [getCompletionFold, ih, chunkTextData, chunkUsageData, lastUsage]
    | reasoning r => simp [getCompletionFold, ih, chunkTextData, chunkUsageData]
    | thinking_content d => simp [getCompletionFold, ih, chunkTextData, chunkUsageData]
    | real_thinking d => simp [getCompletionFold, ih, chunkTextData, chunkUsageData]

theorem getCompletion_spec (chunks : List StreamChunk) :
    getCompletion chunks =
      ((chunks.filterMap chunkTextData).flatten,
       (chunks.filterMap chunkUsageData).getLast?) := by
  rw [getCompletion, getCompletionFold_spec, lastUsage_none_eq_getLast]
  simp

/-- C10: for a successfully completing request, the non-streaming
completion's content is exactly the in-order concatenation of the text
chunks of the streaming pipeline — thinking-as-content chunks (delimiters
included), reasoning chunks, and real-thinking chunks never reach the
returned content — and the reported usage is the data of the last usage
chunk. -/
theorem nonstreaming_content_is_text_concat (env : SwitchEnv)
    (fetchResp : Nat → UpstreamResponse) (modelId payload : List Char)
    (iTM iF sAC incR : Bool) (userContent : List Char)
    (hok : (streamContentRun env fetchResp modelId payload iTM iF sAC incR
      userContent).2.2 = none) :
    getCompletion ((streamContentRun env fetchResp modelId payload iTM iF sAC
        incR userContent).2.1.map Emit.toChunk) =
      ((((streamContentRun env fetchResp modelId payload iTM iF sAC incR
          userContent).2.1.map Emit.toChunk).filterMap chunkTextData).flatten,
       (((streamContentRun env fetchResp modelId payload iTM iF sAC incR
          userContent).2.1.map Emit.toChunk).filterMap chunkUsageData).getLast?) :=
  getCompletion_spec _

/-- Witness for C10 at a trivially successful configuration. -/
theorem nonstreaming_content_is_text_concat_witness :
    getCompletion ((streamContentRun ⟨false⟩ (fun _ => ⟨200, []⟩)
        "m".toList [] false false false false []).2.1.map Emit.toChunk) =
      ((((streamContentRun ⟨false⟩ (fun _ => ⟨200, []⟩)
          "m".toList [] false false false false []).2.1.map
            Emit.toChunk).filterMap chunkTextData).flatten,
       (((streamContentRun ⟨false⟩ (fun _ => ⟨200, []⟩)
          "m".toList [] false false false false []).2.1.map
            Emit.toChunk).filterMap chunkUsageData).getLast?) :=
  nonstreaming_content_is_text_concat ⟨false⟩ (fun _ => ⟨200, []⟩)
    "m".toList [] false false false false [] rfl

/-! ### C3: placement of the role announcement -/

theorem transformChunk_false (id : List Char) (cr : Nat) (md : List Char)
    (c : StreamChunk) :
    (transformChunk id cr md false c).1 = false ∧
    ∀ item ∈ (transformChunk id cr md false c).2, hasRoleItem item = false := by
  cases c <;> simp [transformChunk, hasRoleItem] <;>
    split_ifs <;> simp [hasRoleItem]

theorem transformChunks_false_noRole (id : List Char) (cr : Nat) (md : List Char) :
    ∀ (cs : List StreamChunk),
      ∀ item ∈ transformChunks id cr md false cs, hasRoleItem item = false := by
  intro cs
  induction cs with
  | nil => simp [transformChunks]
  | cons c cs ih =>
    intro item hitem
    have hc := transformChunk_false id cr md c
    simp only [transformChunks, hc.1] at hitem
    rcases List.mem_append.mp hitem with h | h
    · exact hc.2 item h
    · exact ih item h

/-- The possible shapes of a serializer output prefix with respect to the
role announcement: either no role and no content delta has been emitted
yet, or the output splits at the unique role-carrying chunk, which is the
first content-carrying one. -/
def RoleShape (l : List DownstreamItem) : Prop :=
  (∀ item ∈ l, hasRoleItem item = false ∧ hasContentItem item = false) ∨
  (∃ p rc rest, l = p ++ .chunk rc :: rest ∧
     (∀ item ∈ p, hasRoleItem item = false ∧ hasContentItem item = false) ∧
     rc.delta.role = some "assistant".toList ∧ rc.delta.content.isSome = true ∧
     (∀ item ∈ rest, hasRoleItem item = false))

theorem roleShape_cons (item : DownstreamItem) (l : List DownstreamItem)
    (hr : hasRoleItem item = false) (hc : hasContentItem item = false)
    (h : RoleShape l) : RoleShape (item :: l) := by
  rcases h with h | ⟨p, rc, rest, heq, hp, hrole, hcont, hrest⟩
  · left
    intro x hx
    rcases List.mem_cons.mp hx with rfl | hx
    · exact ⟨hr, hc⟩
    · exact h x hx
  · right
    refine ⟨item :: p, rc, rest, by simp [heq], ?_, hrole, hcont, hrest⟩
    intro x hx
    rcases List.mem_cons.mp hx with rfl | hx
    · exact ⟨hr, hc⟩
    · exact hp x hx

theorem transformChunks_roleShape (id : List Char) (cr : Nat) (md : List Char) :
    ∀ (cs : List StreamChunk), RoleShape (transformChunks id cr md true cs) := by
  intro cs
  induction cs with
  | nil => left; simp [transformChunks]
  | cons c cs ih =>
    cases c with
    | text d =>
      by_cases hd : d.isEmpty
      · simpa [transformChunks, transformChunk, hd] using ih
      · right
        refine ⟨[], ⟨id, cr, md, ⟨some "assistant".toList, some d, none⟩, none⟩,
          transformChunks id cr md false cs, ?_, by simp, rfl, rfl, ?_⟩
        · simp [transformChunks, transformChunk, hd]
        · exact transformChunks_false_noRole id cr md cs
    | thinking_content d =>
      by_cases hd : d.isEmpty
      · simpa [transformChunks, transformChunk, hd] using ih
      · right
        refine ⟨[], ⟨id, cr, md, ⟨some "assistant".toList, some d, none⟩, none⟩,
          transformChunks id cr md false cs, ?_, by simp, rfl, rfl, ?_⟩
        · simp [transformChunks, transformChunk, hd]
        · exact transformChunks_false_noRole id cr md cs
    | real_thinking d =>
      by_cases hd : d.isEmpty
      · simpa [transformChunks, transformChunk, hd] using ih
      · have : transformChunks id cr md true (.real_thinking d :: cs) =
            .chunk ⟨id, cr, md, ⟨none, none, some d⟩, none⟩ ::
              transformChunks id cr md true cs := by
          simp [transformChunks, transformChunk, hd]
        rw [this]
        exact roleShape_cons _ _ (by simp [hasRoleItem]) (by simp [hasContentItem]) ih
    | reasoning r =>
      have : transformChunks id cr md true (.reasoning r :: cs) =
          .chunk ⟨id, cr, md, ⟨none, none, some r⟩, none⟩ ::
            transformChunks id cr md true cs := by
        simp [transformChunks, transformChunk]
      rw [this]
      exact roleShape_cons _ _ (by simp [hasRoleItem]) (by simp [hasContentItem]) ih
    | usage u => simpa [transformChunks, transformChunk] using ih

theorem split_at_unique {α : Type} (P : α → Bool) :
    ∀ (p₀ : List α) (rest p q : List α) (rc c : α),
      p₀ ++ rc :: rest = p ++ c :: q →
      (∀ x ∈ p₀, P x = false) → (∀ x ∈ rest, P x = false) →
      P rc = true → P c = true → c = rc ∧ p = p₀ := by
  intro p₀
  induction p₀ with
  | nil =>
    intro rest p q rc c heq h0 hrest hrc hc
    cases p with
    | nil =>
      simp only [List.nil_append, List.cons.injEq] at heq
      exact ⟨heq.1.symm, rfl⟩
    | cons b p =>
      simp only [List.nil_append, List.cons_append, List.cons.injEq] at heq
      have : c ∈ rest := heq.2 ▸ (by simp : c ∈ p ++ c :: q)
      rw [hrest c this] at hc
      cases hc
  | cons a p₀ ih =>
    intro rest p q rc c heq h0 hrest hrc hc
    cases p with
    | nil =>
      simp only [List.cons_append, List.nil_append, List.cons.injEq] at heq
      rw [← heq.1] at hc
      rw [h0 a (by simp)] at hc
      cases hc
    | cons b p =>
      simp only [List.cons_append, List.cons.injEq] at heq
      have := ih rest p q rc c heq.2 (fun x hx => h0 x (by simp [hx])) hrest hrc hc
      exact ⟨this.1, by simp [heq.1, this.2]⟩

/-- C3 (amended): per stream, at most one chunk carries the
role-announcement; a role-carrying chunk always carries a content delta
(text or thinking-as-content) and is the first content-delta chunk of the
stream; and if any content-delta chunk exists, exactly one chunk carries
the role.  (Reasoning deltas never carry the role and do not consume the
first-chunk flag — see the counterexample to the original claim.) -/
theorem role_announcement_on_first_content_chunk (id : List Char) (cr : Nat)
    (md : List Char) (cs : List StreamChunk) :
    ((createOpenAIStreamTransformer id cr md cs).countP hasRoleItem ≤ 1) ∧
    (∀ p c q, createOpenAIStreamTransformer id cr md cs = p ++ .chunk c :: q →
       c.delta.role.isSome = true →
       c.delta.content.isSome = true ∧ ∀ item ∈ p, hasContentItem item = false) ∧
    ((∃ item ∈ createOpenAIStreamTransformer id cr md cs,
        hasContentItem item = true) →
       (createOpenAIStreamTransformer id cr md cs).countP hasRoleItem = 1) := by
  have hshape := transformChunks_roleShape id cr md cs
  have hout : createOpenAIStreamTransformer id cr md cs =
      transformChunks id cr md true cs ++
        [.chunk ⟨id, cr, md, ⟨none, none, none⟩, some "stop".toList⟩, .done] := rfl
  have hFrole : ∀ item ∈
      [DownstreamItem.chunk ⟨id, cr, md, ⟨none, none, none⟩, some "stop".toList⟩,
       DownstreamItem.done], hasRoleItem item = false := by
    intro item hitem
    rcases List.mem_cons.mp hitem with rfl | hitem
    · simp [hasRoleItem]
    · rcases List.mem_cons.mp hitem with rfl | hitem
      · simp [hasRoleItem]
      · cases hitem
  have hFcont : ∀ item ∈
      [DownstreamItem.chunk ⟨id, cr, md, ⟨none, none, none⟩, some "stop".toList⟩,
       DownstreamItem.done], hasContentItem item = false := by
    intro item hitem
    rcases List.mem_cons.mp hitem with rfl | hitem
    · simp [hasContentItem]
    · rcases List.mem_cons.mp hitem with rfl | hitem
      · simp [hasContentItem]
      · cases hitem
  rcases hshape with h | ⟨p0, rc, rest0, heq, hp, hrole, hcont, hrest⟩
  · have hall : ∀ item ∈ createOpenAIStreamTransformer id cr md cs,
        hasRoleItem item = false ∧ hasContentItem item = false := by
      intro item hitem
      rw [hout] at hitem
      rcases List.mem_append.mp hitem with hx | hx
      · exact h item hx
      · exact ⟨hFrole item hx, hFcont item hx⟩
    refine ⟨?_, ?_, ?_⟩
    · rw [List.countP_eq_zero.mpr (fun a ha => by simp [(hall a ha).1])]
      exact Nat.zero_le 1
    · intro p c q hsplit hrole2
      have hmem : DownstreamItem.chunk c ∈ createOpenAIStreamTransformer id cr md cs := by
        rw [hsplit]; simp
      have h2 := (hall _ hmem).1
      simp only [hasRoleItem] at h2
      rw [h2] at hrole2
      cases hrole2
    · rintro ⟨item, hitem, hcont2⟩
      rw [(hall item hitem).2] at hcont2
      cases hcont2
  · have houtsplit : createOpenAIStreamTransformer id cr md cs =
        p0 ++ .chunk rc ::
          (rest0 ++
            [.chunk ⟨id, cr, md, ⟨none, none, none⟩, some "stop".toList⟩, .done]) := by
      rw [hout, heq]; simp
    have hrestF : ∀ item ∈ rest0 ++
        [DownstreamItem.chunk ⟨id, cr, md, ⟨none, none, none⟩, some "stop".toList⟩,
         DownstreamItem.done], hasRoleItem item = false := by
      intro item hitem
      rcases List.mem_append.mp hitem with hx | hx
      · exact hrest item hx
      · exact hFrole item hx
    have hcount : (createOpenAIStreamTransformer id cr md cs).countP hasRoleItem = 1 := by
      rw [houtsplit, List.countP_append, List.countP_cons]
      rw [List.countP_eq_zero.mpr (fun a ha => by simp [(hp a ha).1])]
      rw [List.countP_eq_zero.mpr (fun a ha => by simp [hrestF a ha])]
      simp [hasRoleItem, hrole]
    refine ⟨by rw [hcount], ?_, fun _ => hcount⟩
    intro p c q hsplit hrole2
    have hsplit2 : p0 ++ DownstreamItem.chunk rc ::
        (rest0 ++
          [.chunk ⟨id, cr, md, ⟨none, none, none⟩, some "stop".toList⟩, .done]) =
        p ++ .chunk c :: q := by
      rw [← houtsplit, hsplit]
    obtain ⟨hceq, hpeq⟩ := split_at_unique hasRoleItem p0 _ p q (.chunk rc)
      (.chunk c) hsplit2 (fun x hx => (hp x hx).1) hrestF
      (by simp [hasRoleItem, hrole]) (by simp [hasRoleItem, hrole2])
    have hc : c = rc := by injection hceq
    constructor
    · rw [hc]; exact hcont
    · rw [hpeq]; intro item hitem; exact (hp item hitem).2

/-- Counterexample to C3 as stated: when the stream starts with a
reasoning delta followed by a text delta, the first content-bearing chunk
(in the claim's sense, which includes reasoning deltas) carries no role
announcement — the role goes to the later text chunk instead. -/
theorem role_announcement_counterexample :
    ¬ (∀ p c q,
        createOpenAIStreamTransformer [] 0 []
            [.reasoning "r".toList, .text "hi".toList] = p ++ .chunk c :: q →
        contentBearingItem (.chunk c) = true →
        (∀ item ∈ p, contentBearingItem item = false) →
        c.delta.role.isSome = true) := by
  intro h
  have h2 := h [] ⟨[], 0, [], ⟨none, none, some "r".toList⟩, none⟩
    (createOpenAIStreamTransformer [] 0 [] [.text "hi".toList])
    (by rfl) (by decide) (by simp)
  simp at h2

/-! ### C2: the closing delimiter precedes the first plain text fragment
emitted after a thinking section was opened as content -/

/-- A part whose text does not contain the legacy `"<think>"` marker. -/
def partLegacyFree (p : GeminiPart) : Prop :=
  ∀ t, p.text = some t → hasSubstr openTag t = false

theorem split_in_right {α : Type} (l₁ l₂ p q : List α) (x : α) (hx : x ∉ l₁)
    (h : l₁ ++ l₂ = p ++ x :: q) : ∃ p₀, p = l₁ ++ p₀ ∧ l₂ = p₀ ++ x :: q := by
  rcases split_of_append_eq l₁ l₂ p q x h with ⟨q₀, h1, _⟩ | h2
  · exact absurd (h1 ▸ (by simp : x ∈ p ++ x :: q₀)) hx
  · exact h2

theorem split_cons_unique {α : Type} (x : α) (rest p q : List α) (hx : x ∉ rest)
    (h : x :: rest = p ++ x :: q) : p = [] ∧ q = rest := by
  cases p with
  | nil =>
    simp only [List.nil_append, List.cons.injEq] at h
    exact ⟨rfl, h.2.symm⟩
  | cons a p =>
    simp only [List.cons_append, List.cons.injEq] at h
    exact absurd (h.2 ▸ (by simp : x ∈ p ++ x :: q)) hx

/-- If a list decomposes both as `q₁ ++ close :: q₂` with `q₁` free of text
emissions, and as `p₀ ++ text :: q₃`, then the close precedes the text. -/
theorem closeDelim_before_text :
    ∀ (q₁ body q₂ p₀ q₃ : List Emit) (c : List Char),
      body = q₁ ++ .closeDelim :: q₂ →
      (∀ e ∈ q₁, e.isTextChunk = false) →
      body = p₀ ++ .chunk (.text c) :: q₃ →
      .closeDelim ∈ p₀ := by
  intro q₁
  induction q₁ with
  | nil =>
    intro body q₂ p₀ q₃ c h1 _ h2
    cases p₀ with
    | nil =>
      rw [h2] at h1
      simp only [List.nil_append, List.cons.injEq] at h1
      cases h1.1
    | cons a p₀ =>
      rw [h1] at h2
      simp only [List.nil_append, List.cons_append, List.cons.injEq] at h2
      simp [h2.1]
  | cons e q₁ ih =>
    intro body q₂ p₀ q₃ c h1 hq₁ h2
    cases p₀ with
    | nil =>
      rw [h2] at h1
      simp only [List.nil_append, List.cons_append, List.cons.injEq] at h1
      have := hq₁ e (by simp)
      rw [← h1.1] at this
      simp [Emit.isTextChunk] at this
    | cons a p₀ =>
      rw [h1] at h2
      simp only [List.cons_append, List.cons.injEq] at h2
      have := ih (q₁ ++ .closeDelim :: q₂) q₂ p₀ q₃ c rfl
        (fun x hx => hq₁ x (by simp [hx])) h2.2
      simp [this]

/-- Enumeration of the behaviours of `processPart` on a legacy-free part. -/
theorem processPart_legacyFree_shape (rac ndc : Bool) (st : ThinkState)
    (p : GeminiPart) (hp : partLegacyFree p) :
    processPart rac ndc st p = (st, []) ∨
    (∃ t,
      (rac = true ∧ st.hasStartedThinking = false ∧
        processPart rac ndc st p =
          (⟨true, st.hasClosedThinking⟩,
           [.openDelim, .chunk (.thinking_content t)])) ∨
      (rac = true ∧ st.hasStartedThinking = true ∧
        processPart rac ndc st p = (st, [.chunk (.thinking_content t)])) ∨
      (rac = false ∧
        processPart rac ndc st p = (st, [.chunk (.real_thinking t)]))) ∨
    (∃ t,
      (((ndc || (rac && st.hasStartedThinking)) && !st.hasClosedThinking) = true ∧
        processPart rac ndc st p =
          (⟨st.hasStartedThinking, true⟩, [.closeDelim, .chunk (.text t)])) ∨
      (((ndc || (rac && st.hasStartedThinking)) && !st.hasClosedThinking) = false ∧
        processPart rac ndc st p = (st, [.chunk (.text t)]))) := by
  rcases p with ⟨text, thought⟩
  cases text with
  | none => left; simp [processPart]
  | some t =>
    have hleg : hasSubstr openTag t = false := hp t rfl
    by_cases hte : t.isEmpty
    · left
      simp [processPart, hte]
    · simp only [Bool.not_eq_true] at hte
      cases thought with
      | true =>
        cases rac with
        | true =>
          cases hs : st.hasStartedThinking with
          | false =>
            right; left
            exact ⟨t, Or.inl ⟨rfl, rfl, by simp [processPart, hte, hs]⟩⟩
          | true =>
            right; left
            exact ⟨t, Or.inr (Or.inl ⟨rfl, rfl, by simp [processPart, hte, hs]⟩)⟩
        | false =>
          right; left
          exact ⟨t, Or.inr (Or.inr ⟨rfl, by simp [processPart, hte]⟩)⟩
      | false =>
        right; right
        refine ⟨t, ?_⟩
        cases hcond : ((ndc || (rac && st.hasStartedThinking)) && !st.hasClosedThinking) with
        | true =>
          left
          exact ⟨rfl, by simp [processPart, hte, hleg, hcond]⟩
        | false =>
          right
          exact ⟨rfl, by simp [processPart, hte, hleg, hcond]⟩

/-- Invariant for the prelude scenario (`needsThinkingClose = true`,
`realThinkingAsContent = false`): the body emits no opening delimiter, the
close count matches the closed flag, no text is emitted while the section
is unclosed, and once closed the trace splits at the closing delimiter with
no text before it. -/
def InvA (st : ThinkState) (tr : List Emit) : Prop :=
  tr.count .openDelim = 0 ∧
  tr.count .closeDelim = st.hasClosedThinking.toNat ∧
  (st.hasClosedThinking = false → ∀ e ∈ tr, e.isTextChunk = false) ∧
  (st.hasClosedThinking = true →
    ∃ q₁ q₂, tr = q₁ ++ .closeDelim :: q₂ ∧ ∀ e ∈ q₁, e.isTextChunk = false)

theorem invA_neutral (st : ThinkState) (tr : List Emit) (e : Emit)
    (ht : e.isTextChunk = false) (ho : e ≠ .openDelim) (hc : e ≠ .closeDelim)
    (h : InvA st tr) : InvA st (tr ++ [e]) := by
  obtain ⟨h1, h2, h3, h4⟩ := h
  refine ⟨?_, ?_, ?_, ?_⟩
  · simp [List.count_append, h1, List.count_cons, Ne.symm ho]
  · simp [List.count_append, h2, List.count_cons, Ne.symm hc]
  · intro hcl x hx
    rcases List.mem_append.mp hx with hx | hx
    · exact h3 hcl x hx
    · simp only [List.mem_singleton] at hx
      simpa [hx] using ht
  · intro hcl
    obtain ⟨q₁, q₂, heq, hq₁⟩ := h4 hcl
    exact ⟨q₁, q₂ ++ [e], by simp [heq], hq₁⟩

theorem invA_processPart (st : ThinkState) (tr : List Emit) (p : GeminiPart)
    (hp : partLegacyFree p) (h : InvA st tr) :
    InvA (processPart false true st p).1 (tr ++ (processPart false true st p).2) := by
  rcases processPart_legacyFree_shape false true st p hp with heq |
    ⟨t, ⟨hfalse, _⟩ | ⟨hfalse, _⟩ | ⟨_, heq⟩⟩ | ⟨t, ⟨hcond, heq⟩ | ⟨hcond, heq⟩⟩
  · simpa [heq] using h
  · cases hfalse
  · cases hfalse
  · rw [heq]
    exact invA_neutral st tr _ (by simp [Emit.isTextChunk]) (by simp) (by simp) h
  · -- plain text with close: the section gets closed here
    have hclosed : st.hasClosedThinking = false := by
      simpa using hcond
    obtain ⟨h1, h2, h3, h4⟩ := h
    rw [heq]
    refine ⟨?_, ?_, ?_, ?_⟩
    · simp [List.count_append, h1, List.count_cons]
    · simp [List.count_append, h2, hclosed, List.count_cons]
    · intro hcl
      cases hcl
    · intro _
      exact ⟨tr, [.chunk (.text t)], by simp, h3 hclosed⟩
  · -- plain text without close: the section is already closed
    have hclosed : st.hasClosedThinking = true := by
      simpa using hcond
    obtain ⟨h1, h2, h3, h4⟩ := h
    rw [heq]
    refine ⟨?_, ?_, ?_, ?_⟩
    · simp [List.count_append, h1, List.count_cons]
    · simp [List.count_append, h2, List.count_cons]
    · intro hcl
      rw [hclosed] at hcl
      cases hcl
    · intro hcl
      obtain ⟨q₁, q₂, heq2, hq₁⟩ := h4 hclosed
      exact ⟨q₁, q₂ ++ [.chunk (.text t)], by simp [heq2], hq₁⟩

theorem invA_processParts :
    ∀ (ps : List GeminiPart) (st : ThinkState) (tr : List Emit),
      (∀ p ∈ ps, partLegacyFree p) → InvA st tr →
      InvA (processParts false true st ps).1
        (tr ++ (processParts false true st ps).2) := by
  intro ps
  induction ps with
  | nil => intro st tr _ h; simpa [processParts] using h
  | cons p ps ih =>
    intro st tr hps h
    have h1 := invA_processPart st tr p (hps p (by simp)) h
    have h2 := ih (processPart false true st p).1
      (tr ++ (processPart false true st p).2)
      (fun x hx => hps x (by simp [hx])) h1
    simpa [processParts, List.append_assoc] using h2

theorem invA_processEvent (st : ThinkState) (tr : List Emit) (ev : GeminiEvent)
    (hev : ∀ p ∈ ev.parts, partLegacyFree p) (h : InvA st tr) :
    InvA (processEvent false true st ev).1
      (tr ++ (processEvent false true st ev).2) := by
  have h1 := invA_processParts ev.parts st tr hev h
  rcases ev with ⟨parts, usage⟩
  cases usage with
  | none => simpa [processEvent] using h1
  | some u =>
    have h2 := invA_neutral _ _ (.chunk (.usage
      ⟨u.promptTokenCount.getD 0, u.candidatesTokenCount.getD 0⟩))
      (by simp [Emit.isTextChunk]) (by simp) (by simp) h1
    simpa [processEvent, List.append_assoc] using h2

theorem invA_processEvents :
    ∀ (evs : List GeminiEvent) (st : ThinkState) (tr : List Emit),
      (∀ ev ∈ evs, ∀ p ∈ ev.parts, partLegacyFree p) → InvA st tr →
      InvA (processEvents false true st evs).1
        (tr ++ (processEvents false true st evs).2) := by
  intro evs
  induction evs with
  | nil => intro st tr _ h; simpa [processEvents] using h
  | cons ev evs ih =>
    intro st tr hevs h
    have h1 := invA_processEvent st tr ev (hevs ev (by simp)) h
    have h2 := ih (processEvent false true st ev).1
      (tr ++ (processEvent false true st ev).2)
      (fun x hx => hevs x (by simp [hx])) h1
    simpa [processEvents, List.append_assoc] using h2

theorem invA_performStreamBody (events : List GeminiEvent)
    (hevs : ∀ ev ∈ events, ∀ p ∈ ev.parts, partLegacyFree p) :
    InvA (processEvents false true ⟨false, false⟩ events).1
      (performStreamBody true false events) := by
  have h := invA_processEvents events ⟨false, false⟩ []
    hevs ⟨by simp, by simp, by simp, by simp⟩
  simpa [performStreamBody] using h

/-- Invariant for the real-thinking-as-content scenario
(`needsThinkingClose = false`, `realThinkingAsContent = true`): delimiter
counts match the flags, closing implies opening, while open-and-unclosed no
text follows the opening delimiter, and once closed everything after the
opening delimiter up to the closing delimiter is text-free. -/
def InvB (st : ThinkState) (tr : List Emit) : Prop :=
  tr.count .openDelim = st.hasStartedThinking.toNat ∧
  tr.count .closeDelim = st.hasClosedThinking.toNat ∧
  (st.hasClosedThinking = true → st.hasStartedThinking = true) ∧
  (st.hasStartedThinking = true → st.hasClosedThinking = false →
    ∀ p q, tr = p ++ .openDelim :: q → ∀ e ∈ q, e.isTextChunk = false) ∧
  (st.hasClosedThinking = true →
    ∀ p q, tr = p ++ .openDelim :: q →
      ∃ q₁ q₂, q = q₁ ++ .closeDelim :: q₂ ∧ ∀ e ∈ q₁, e.isTextChunk = false)

theorem invB_neutral (st : ThinkState) (tr : List Emit) (e : Emit)
    (ht : e.isTextChunk = false) (ho : e ≠ .openDelim) (hc : e ≠ .closeDelim)
    (h : InvB st tr) : InvB st (tr ++ [e]) := by
  obtain ⟨h1, h2, h3, h4, h5⟩ := h
  refine ⟨?_, ?_, h3, ?_, ?_⟩
  · simp [List.count_append, h1, List.count_cons, Ne.symm ho]
  · simp [List.count_append, h2, List.count_cons, Ne.symm hc]
  · intro hs hcl p q hsplit
    rcases split_of_append_eq tr [e] p q .openDelim hsplit with
      ⟨q₀, htr, hq⟩ | ⟨p₀, _, hl⟩
    · intro x hx
      rw [hq] at hx
      rcases List.mem_append.mp hx with hx | hx
      · exact h4 hs hcl p q₀ htr x hx
      · simp only [List.mem_singleton] at hx
        simpa [hx] using ht
    · exfalso
      have hmem : Emit.openDelim ∈ p₀ ++ Emit.openDelim :: q := by simp
      rw [← hl] at hmem
      simp only [List.mem_singleton] at hmem
      exact ho hmem.symm
  · intro hcl p q hsplit
    rcases split_of_append_eq tr [e] p q .openDelim hsplit with
      ⟨q₀, htr, hq⟩ | ⟨p₀, _, hl⟩
    · obtain ⟨q₁, q₂, heq, hq₁⟩ := h5 hcl p q₀ htr
      exact ⟨q₁, q₂ ++ [e], by simp [hq, heq], hq₁⟩
    · exfalso
      have hmem : Emit.openDelim ∈ p₀ ++ Emit.openDelim :: q := by simp
      rw [← hl] at hmem
      simp only [List.mem_singleton] at hmem
      exact ho hmem.symm

theorem invB_processPart (st : ThinkState) (tr : List Emit) (p : GeminiPart)
    (hp : partLegacyFree p) (h : InvB st tr) :
    InvB (processPart true false st p).1 (tr ++ (processPart true false st p).2) := by
  rcases processPart_legacyFree_shape true false st p hp with heq |
    ⟨t, ⟨_, hs, heq⟩ | ⟨_, hs, heq⟩ | ⟨hfalse, _⟩⟩ |
    ⟨t, ⟨hcond, heq⟩ | ⟨hcond, heq⟩⟩
  · simpa [heq] using h
  · -- opening: first thought part while closed
    obtain ⟨h1, h2, h3, h4, h5⟩ := h
    have hcl : st.hasClosedThinking = false := by
      cases hclosed : st.hasClosedThinking with
      | false => rfl
      | true => rw [h3 hclosed] at hs; cases hs
    have hnotin : Emit.openDelim ∉ tr :=
      List.count_eq_zero.mp (by simp [h1, hs])
    rw [heq]
    refine ⟨?_, ?_, by simp, ?_, ?_⟩
    · simp [List.count_append, h1, hs, List.count_cons]
    · simp [List.count_append, h2, List.count_cons]
    · intro _ _ p2 q2 hsplit
      rcases split_in_right tr [.openDelim, .chunk (.thinking_content t)]
        p2 q2 .openDelim hnotin hsplit with ⟨p₀, _, hl⟩
      cases p₀ with
      | nil =>
        simp only [List.nil_append, List.cons.injEq] at hl
        intro x hx
        rw [← hl.2] at hx
        simp only [List.mem_singleton] at hx
        simp [hx, Emit.isTextChunk]
      | cons a p₀ =>
        simp only [List.cons_append, List.cons.injEq] at hl
        exfalso
        have := hl.2
        cases p₀ with
        | nil => simp at this
        | cons b p₀ => simp at this
    · intro hcl2
      rw [hcl] at hcl2
      cases hcl2
  · -- further thought content while open: a neutral emission
    rw [heq]
    exact invB_neutral st tr _ (by simp [Emit.isTextChunk]) (by simp) (by simp) h
  · cases hfalse
  · -- plain text closing the section
    obtain ⟨h1, h2, h3, h4, h5⟩ := h
    have hst : st.hasStartedThinking = true ∧ st.hasClosedThinking = false := by
      constructor
      · cases hss : st.hasStartedThinking with
        | true => rfl
        | false => rw [hss] at hcond; simp at hcond
      · cases hcc : st.hasClosedThinking with
        | false => rfl
        | true => rw [hcc] at hcond; simp at hcond
    rw [heq]
    refine ⟨?_, ?_, by simp [hst.1], ?_, ?_⟩
    · simp [List.count_append, h1, List.count_cons]
    · simp [List.count_append, h2, hst.2, List.count_cons]
    · intro _ hcl
      cases hcl
    · intro _ p2 q2 hsplit
      rcases split_of_append_eq tr [.closeDelim, .chunk (.text t)]
        p2 q2 .openDelim hsplit with ⟨q₀, htr, hq⟩ | ⟨p₀, _, hl⟩
      · exact ⟨q₀, [.chunk (.text t)], by simp [hq],
          h4 hst.1 hst.2 p2 q₀ htr⟩
      · exfalso
        have : Emit.openDelim ∈ p₀ ++ .openDelim :: q2 := by simp
        rw [← hl] at this
        simp at this
  · -- plain text with the section never opened or already closed
    obtain ⟨h1, h2, h3, h4, h5⟩ := h
    rw [heq]
    refine ⟨?_, ?_, h3, ?_, ?_⟩
    · simp [List.count_append, h1, List.count_cons]
    · simp [List.count_append, h2, List.count_cons]
    · intro hs hcl
      rw [hs, hcl] at hcond
      simp at hcond
    · intro hcl p2 q2 hsplit
      rcases split_of_append_eq tr [.chunk (.text t)]
        p2 q2 .openDelim hsplit with ⟨q₀, htr, hq⟩ | ⟨p₀, _, hl⟩
      · obtain ⟨q₁, q₂, heq2, hq₁⟩ := h5 hcl p2 q₀ htr
        exact ⟨q₁, q₂ ++ [.chunk (.text t)], by simp [hq, heq2], hq₁⟩
      · exfalso
        have : Emit.openDelim ∈ p₀ ++ .openDelim :: q2 := by simp
        rw [← hl] at this
        simp at this

theorem invB_processParts :
    ∀ (ps : List GeminiPart) (st : ThinkState) (tr : List Emit),
      (∀ p ∈ ps, partLegacyFree p) → InvB st tr →
      InvB (processParts true false st ps).1
        (tr ++ (processParts true false st ps).2) := by
  intro ps
  induction ps with
  | nil => intro st tr _ h; simpa [processParts] using h
  | cons p ps ih =>
    intro st tr hps h
    have h1 := invB_processPart st tr p (hps p (by simp)) h
    have h2 := ih (processPart true false st p).1
      (tr ++ (processPart true false st p).2)
      (fun x hx => hps x (by simp [hx])) h1
    simpa [processParts, List.append_assoc] using h2

theorem invB_processEvent (st : ThinkState) (tr : List Emit) (ev : GeminiEvent)
    (hev : ∀ p ∈ ev.parts, partLegacyFree p) (h : InvB st tr) :
    InvB (processEvent true false st ev).1
      (tr ++ (processEvent true false st ev).2) := by
  have h1 := invB_processParts ev.parts st tr hev h
  rcases ev with ⟨parts, usage⟩
  cases usage with
  | none => simpa [processEvent] using h1
  | some u =>
    have h2 := invB_neutral _ _ (.chunk (.usage
      ⟨u.promptTokenCount.getD 0, u.candidatesTokenCount.getD 0⟩))
      (by simp [Emit.isTextChunk]) (by simp) (by simp) h1
    simpa [processEvent, List.append_assoc] using h2

theorem invB_processEvents :
    ∀ (evs : List GeminiEvent) (st : ThinkState) (tr : List Emit),
      (∀ ev ∈ evs, ∀ p ∈ ev.parts, partLegacyFree p) → InvB st tr →
      InvB (processEvents true false st evs).1
        (tr ++ (processEvents true false st evs).2) := by
  intro evs
  induction evs with
  | nil => intro st tr _ h; simpa [processEvents] using h
  | cons ev evs ih =>
    intro st tr hevs h
    have h1 := invB_processEvent st tr ev (hevs ev (by simp)) h
    have h2 := ih (processEvent true false st ev).1
      (tr ++ (processEvent true false st ev).2)
      (fun x hx => hevs x (by simp [hx])) h1
    simpa [processEvents, List.append_assoc] using h2

theorem invB_performStreamBody (events : List GeminiEvent)
    (hevs : ∀ ev ∈ events, ∀ p ∈ ev.parts, partLegacyFree p) :
    InvB (processEvents true false ⟨false, false⟩ events).1
      (performStreamBody false true events) := by
  have h := invB_processEvents events ⟨false, false⟩ []
    hevs ⟨by simp, by simp, by simp, by simp, by simp⟩
  simpa [performStreamBody] using h

/-- With neither a synthetic close pending nor thinking-as-content, the
state flags never change. -/
theorem processPart_state_id (st : ThinkState) (p : GeminiPart) :
    (processPart false false st p).1 = st := by
  rcases p with ⟨text, thought⟩
  cases text with
  | none => simp [processPart]
  | some t =>
    simp only [processPart]
    rcases hm : thinkMatch t with _ | cap <;>
      cases thought <;> simp [hm] <;> split_ifs <;> simp_all

theorem processEvents_state_id :
    ∀ (evs : List GeminiEvent) (st : ThinkState),
      (processEvents false false st evs).1 = st := by
  intro evs
  induction evs with
  | nil => intro st; simp [processEvents]
  | cons ev evs ih =>
    intro st
    have hev : (processEvent false false st ev).1 = st := by
      rcases ev with ⟨parts, usage⟩
      have hparts : ∀ (ps : List GeminiPart) (st₀ : ThinkState),
          (processParts false false st₀ ps).1 = st₀ := by
        intro ps
        induction ps with
        | nil => intro st₀; simp [processParts]
        | cons p ps ihp =>
          intro st₀
          simp only [processParts]
          rw [ihp, processPart_state_id]
      cases usage <;> simp [processEvent, hparts]
    simp only [processEvents]
    rw [ih, hev]

theorem performStreamBody_noClose (events : List GeminiEvent) :
    (performStreamBody false false events).count .closeDelim = 0 := by
  have h := (processEvents_counts false false events ⟨false, false⟩).2
  rw [processEvents_state_id] at h
  simpa [performStreamBody] using h

theorem performStreamRequest_ok (env : SwitchEnv)
    (fetchResp : Nat → UpstreamResponse) (req : StreamRequest)
    (ndc rac : Bool) (om : Option (List Char)) (events : List GeminiEvent)
    (h200 : fetchResp 0 = ⟨200, events⟩) :
    performStreamRequest env fetchResp req ndc rac om =
      ([.fetch req], performStreamBody ndc rac events, none) := by
  simp [performStreamRequest, performStreamRequestF, statusOk, h200]

theorem tcchunk_props (l : List (List Char)) :
    ∀ e ∈ l.map (fun c => Emit.chunk (StreamChunk.thinking_content c)),
      e.isTextChunk = false ∧ e ≠ .openDelim ∧ e ≠ .closeDelim := by
  intro e he
  rcases List.mem_map.mp he with ⟨m, _, rfl⟩
  exact ⟨by simp [Emit.isTextChunk], by simp, by simp⟩

/-- C2 (amended): for every stream in which a thinking section was opened
as content, provided the first upstream attempt succeeds and no upstream
part carries the legacy `"<think>"` marker: at most one closing delimiter
is emitted; every plain text fragment emitted after the opening delimiter
is strictly preceded by a closing delimiter; and when at least one such
text fragment exists the closing delimiter is emitted exactly once.  (When
no plain text follows the opening, no closing delimiter is forced — and
legacy-tagged parts in metadata mode, or a model-switch notification, can
put a text fragment before any close, hence the added hypotheses; see the
counterexample.) -/
theorem close_before_first_text_after_open (env : SwitchEnv)
    (fetchResp : Nat → UpstreamResponse) (modelId payload : List Char)
    (iTM iF sAC incR : Bool) (userContent : List Char)
    (events : List GeminiEvent)
    (h200 : fetchResp 0 = ⟨200, events⟩)
    (hleg : ∀ ev ∈ events, ∀ p ∈ ev.parts, partLegacyFree p) :
    ((streamContentRun env fetchResp modelId payload iTM iF sAC incR
        userContent).2.1.count .closeDelim ≤ 1) ∧
    (∀ p q, (streamContentRun env fetchResp modelId payload iTM iF sAC incR
        userContent).2.1 = p ++ .openDelim :: q →
      ∀ p2 c q2, q = p2 ++ .chunk (.text c) :: q2 →
        .closeDelim ∈ p ∨ .closeDelim ∈ p2) ∧
    ((∃ p q p2 c q2,
        (streamContentRun env fetchResp modelId payload iTM iF sAC incR
          userContent).2.1 = p ++ .openDelim :: q ∧
        q = p2 ++ .chunk (.text c) :: q2) →
      (streamContentRun env fetchResp modelId payload iTM iF sAC incR
        userContent).2.1.count .closeDelim = 1) := by
  set T := (streamContentRun env fetchResp modelId payload iTM iF sAC incR
    userContent).2.1 with hTset
  have hT : T =
      (if (iTM && iF && !incR) = true then
        generateReasoningOutput userContent sAC else []) ++
      performStreamBody ((iTM && iF && !incR) && sAC) (incR && sAC) events := by
    rw [hTset]
    simp only [streamContentRun,
      performStreamRequest_ok env fetchResp ⟨modelId, payload⟩
        ((iTM && iF && !incR) && sAC) (incR && sAC) (some modelId) events h200]
  suffices hab : T.count .closeDelim ≤ 1 ∧
      (∀ p q, T = p ++ .openDelim :: q →
        ∀ p2 c q2, q = p2 ++ .chunk (.text c) :: q2 →
          .closeDelim ∈ p ∨ .closeDelim ∈ p2) by
    refine ⟨hab.1, hab.2, ?_⟩
    rintro ⟨p, q, p2, c, q2, hT2, hq2⟩
    have hmem : Emit.closeDelim ∈ T := by
      rcases hab.2 p q hT2 p2 c q2 hq2 with hin | hin
      · rw [hT2]
        exact List.mem_append.mpr (Or.inl hin)
      · rw [hT2]
        refine List.mem_append.mpr (Or.inr (List.mem_cons.mpr (Or.inr ?_)))
        rw [hq2]
        exact List.mem_append.mpr (Or.inl hin)
    have hne : T.count .closeDelim ≠ 0 := fun h0 => (List.count_eq_zero.mp h0) hmem
    have := hab.1
    omega
  by_cases hFP : (iTM && iF && !incR) = true
  · have hincR : incR = false := by
      have h := hFP
      simp only [Bool.and_eq_true, Bool.not_eq_true'] at h
      exact h.2
    cases hsac : sAC with
    | true =>
      have hT2 : T = Emit.openDelim ::
          ((chunkify (fullReasoningText (requestPreview userContent))).map
            (fun c => Emit.chunk (StreamChunk.thinking_content c)) ++
           performStreamBody true false events) := by
        rw [hT, hFP, hincR, hsac]
        simp [generateReasoningOutput]
      obtain ⟨hb1, hb2, hb3, hb4⟩ := invA_performStreamBody events hleg
      have htc := tcchunk_props (chunkify (fullReasoningText (requestPreview userContent)))
      have htc0 : ((chunkify (fullReasoningText (requestPreview userContent))).map
          (fun c => Emit.chunk (StreamChunk.thinking_content c))).count
            .closeDelim = 0 :=
        List.count_eq_zero.mpr (fun hmem => (htc _ hmem).2.2 rfl)
      constructor
      · rw [hT2]
        have hle : ((processEvents false true ⟨false, false⟩
            events).1.hasClosedThinking).toNat ≤ 1 := by
          cases (processEvents false true ⟨false, false⟩
            events).1.hasClosedThinking <;> simp
        simpa [List.count_cons, List.count_append, htc0, hb2] using hle
      · intro p q hsplit p2 c q2 hsplit2
        have hnotin : Emit.openDelim ∉
            (chunkify (fullReasoningText (requestPreview userContent))).map
              (fun c => Emit.chunk (StreamChunk.thinking_content c)) ++
            performStreamBody true false events := by
          intro hmem
          rcases List.mem_append.mp hmem with hx | hx
          · exact (htc _ hx).2.1 rfl
          · exact (List.count_eq_zero.mp (by simpa using hb1)) hx
        rw [hT2] at hsplit
        obtain ⟨hpnil, hqeq⟩ := split_cons_unique _ _ p q hnotin hsplit
        rw [hqeq] at hsplit2
        rcases split_of_append_eq _ _ p2 q2 _ hsplit2 with
          ⟨q₀, htcsplit, _⟩ | ⟨p₀, hp2, hbodysplit⟩
        · exfalso
          have hmem : Emit.chunk (.text c) ∈
              (chunkify (fullReasoningText (requestPreview userContent))).map
                (fun c => Emit.chunk (StreamChunk.thinking_content c)) := by
            rw [htcsplit]; simp
          have := (htc _ hmem).1
          simp [Emit.isTextChunk] at this
        · right
          cases hcl : (processEvents false true ⟨false, false⟩
              events).1.hasClosedThinking with
          | false =>
            exfalso
            have hmem : Emit.chunk (.text c) ∈ performStreamBody true false events := by
              rw [hbodysplit]; simp
            have := hb3 hcl _ hmem
            simp [Emit.isTextChunk] at this
          | true =>
            obtain ⟨q₁, q₂, hbeq, hq₁⟩ := hb4 hcl
            have hin := closeDelim_before_text q₁ _ q₂ p₀ q2 c hbeq hq₁ hbodysplit
            rw [hp2]
            exact List.mem_append.mpr (Or.inr hin)
    | false =>
      have hT2 : T = (reasoningMessages.map
          (replaceFirst previewPlaceholder (requestPreview userContent))).map
            (fun m => Emit.chunk (.reasoning m)) ++
          performStreamBody false false events := by
        rw [hT, hFP, hincR, hsac]
        simp [generateReasoningOutput, List.map_map]
      constructor
      · rw [hT2, List.count_append]
        rw [count_delim_map_chunk _ _ _ (fun c => by simp),
          performStreamBody_noClose]
        omega
      · intro p q hsplit p2 c q2 hsplit2
        exfalso
        have hnotin : Emit.openDelim ∉ T := by
          rw [hT2]
          intro hmem
          rcases List.mem_append.mp hmem with hx | hx
          · rcases List.mem_map.mp hx with ⟨m, _, hm⟩
            cases hm
          · exact (List.count_eq_zero.mp
              (performStreamBody_noOpen false events)) hx
        refine hnotin ?_
        rw [hsplit]
        simp
  · have hb : (iTM && iF && !incR) = false := by simpa using hFP
    have hT2 : T = performStreamBody false (incR && sAC) events := by
      rw [hT, hb]
      simp
    cases hrac : (incR && sAC) with
    | true =>
      rw [hrac] at hT2
      obtain ⟨hb1, hb2, hb3, hb4, hb5⟩ := invB_performStreamBody events hleg
      constructor
      · rw [hT2, hb2]
        cases (processEvents true false ⟨false, false⟩
          events).1.hasClosedThinking <;> simp
      · intro p q hsplit p2 c q2 hsplit2
        rw [hT2] at hsplit
        cases hcl : (processEvents true false ⟨false, false⟩
            events).1.hasClosedThinking with
        | true =>
          obtain ⟨q₁, q₂, hqeq, hq₁⟩ := hb5 hcl p q hsplit
          right
          exact closeDelim_before_text q₁ q q₂ p2 q2 c hqeq hq₁ hsplit2
        | false =>
          exfalso
          cases hss : (processEvents true false ⟨false, false⟩
              events).1.hasStartedThinking with
          | true =>
            have hmem : Emit.chunk (.text c) ∈ q := by
              rw [hsplit2]; simp
            have := hb4 hss hcl p q hsplit _ hmem
            simp [Emit.isTextChunk] at this
          | false =>
            have hnotin : Emit.openDelim ∉ performStreamBody false true events :=
              List.count_eq_zero.mp (by simp [hb1, hss])
            refine hnotin ?_
            rw [hsplit]
            simp
    | false =>
      rw [hrac] at hT2
      constructor
      · rw [hT2, performStreamBody_noClose]
        omega
      · intro p q hsplit p2 c q2 hsplit2
        exfalso
        have hnotin : Emit.openDelim ∉ performStreamBody false false events :=
          List.count_eq_zero.mp (performStreamBody_noOpen false events)
        refine hnotin ?_
        rw [← hT2, hsplit]
        simp


/-- Witness for C2 (amended) with the synthetic prelude active and an empty
upstream event sequence. -/
theorem close_before_first_text_after_open_witness :
    ((streamContentRun ⟨false⟩ (fun _ => ⟨200, []⟩) "m".toList []
        true true true false []).2.1.count .closeDelim ≤ 1) ∧
    (∀ p q, (streamContentRun ⟨false⟩ (fun _ => ⟨200, []⟩) "m".toList []
        true true true false []).2.1 = p ++ .openDelim :: q →
      ∀ p2 c q2, q = p2 ++ .chunk (.text c) :: q2 →
        .closeDelim ∈ p ∨ .closeDelim ∈ p2) ∧
    ((∃ p q p2 c q2,
        (streamContentRun ⟨false⟩ (fun _ => ⟨200, []⟩) "m".toList []
          true true true false []).2.1 = p ++ .openDelim :: q ∧
        q = p2 ++ .chunk (.text c) :: q2) →
      (streamContentRun ⟨false⟩ (fun _ => ⟨200, []⟩) "m".toList []
        true true true false []).2.1.count .closeDelim = 1) :=
  close_before_first_text_after_open ⟨false⟩ (fun _ => ⟨200, []⟩) "m".toList []
    true true true false [] [] rfl
    (fun ev hev => absurd hev (List.not_mem_nil ev))

/-- Counterexample to C2 as stated, in three parts.  First: it is not true
that whenever a thinking section was opened as content (an opening
delimiter was emitted) and some plain text fragment follows, the closing
delimiter is emitted exactly once — a legacy `"<think>"` part in metadata
mode emits its text without any close (the concrete instance used).
Second: with no text fragment at all, no closing delimiter is emitted
either.  Third: under a 429 model switch, the switch-notification text
fragment precedes the closing delimiter, so the close is not before the
first plain text fragment emitted after the section was opened. -/
theorem close_before_first_text_counterexample :
    (¬ ∀ (env : SwitchEnv) (fetchResp : Nat → UpstreamResponse)
        (modelId payload userContent : List Char) (iTM iF sAC incR : Bool),
        (streamContentRun env fetchResp modelId payload iTM iF sAC incR
          userContent).2.1.head? = some .openDelim →
        (∃ c, Emit.chunk (.text c) ∈
          (streamContentRun env fetchResp modelId payload iTM iF sAC incR
            userContent).2.1) →
        (streamContentRun env fetchResp modelId payload iTM iF sAC incR
          userContent).2.1.count .closeDelim = 1) ∧
    ((streamContentRun ⟨false⟩ (fun _ => ⟨200, []⟩) "m".toList []
        true true true false []).2.1.head? = some .openDelim ∧
     (streamContentRun ⟨false⟩ (fun _ => ⟨200, []⟩) "m".toList []
        true true true false []).2.1.count .closeDelim = 0) ∧
    (∃ p2 q2,
      (streamContentRun ⟨true⟩
        (fun k => if k = 0 then ⟨429, []⟩
          else ⟨200, [⟨[⟨some "x".toList, false⟩], none⟩]⟩)
        "gemini-2.5-pro".toList [] true true true false []).2.1 =
        .openDelim :: (p2 ++
          .chunk (.text (createSwitchNotification "gemini-2.5-pro".toList
            "gemini-2.5-flash".toList)) :: q2) ∧
      .closeDelim ∉ p2 ∧
      (streamContentRun ⟨true⟩
        (fun k => if k = 0 then ⟨429, []⟩
          else ⟨200, [⟨[⟨some "x".toList, false⟩], none⟩]⟩)
        "gemini-2.5-pro".toList [] true true true false []).2.1.count
          .closeDelim = 1) := by
  have htc0 : ((chunkify (fullReasoningText (requestPreview []))).map
      (fun c => Emit.chunk (StreamChunk.thinking_content c))).count
        .closeDelim = 0 :=
    List.count_eq_zero.mpr (fun hmem => (tcchunk_props _ _ hmem).2.2 rfl)
  refine ⟨?_, ?_, ?_⟩
  · intro h
    have hbody : performStreamBody true false
        [⟨[⟨some "<think>a</think>b".toList, false⟩], none⟩] =
        [.chunk (.real_thinking "a".toList), .chunk (.text "b".toList)] := by
      decide
    have h1 : (streamContentRun ⟨false⟩
        (fun _ => ⟨200, [⟨[⟨some "<think>a</think>b".toList, false⟩], none⟩]⟩)
        "m".toList [] true true true false []).2.1 =
        Emit.openDelim ::
          ((chunkify (fullReasoningText (requestPreview []))).map
            (fun c => Emit.chunk (StreamChunk.thinking_content c)) ++
           [.chunk (.real_thinking "a".toList), .chunk (.text "b".toList)]) := by
      rw [show (streamContentRun ⟨false⟩
          (fun _ => ⟨200, [⟨[⟨some "<think>a</think>b".toList, false⟩], none⟩]⟩)
          "m".toList [] true true true false []).2.1 =
        generateReasoningOutput [] true ++ performStreamBody true false
          [⟨[⟨some "<think>a</think>b".toList, false⟩], none⟩] from by
        simp only [streamContentRun,
          performStreamRequest_ok ⟨false⟩
            (fun _ => ⟨200, [⟨[⟨some "<think>a</think>b".toList, false⟩], none⟩]⟩)
            ⟨"m".toList, []⟩ ((true && true && !false) && true) (false && true)
            (some "m".toList) [⟨[⟨some "<think>a</think>b".toList, false⟩], none⟩]
            rfl]
        norm_num]
      rw [hbody]
      simp [generateReasoningOutput]
    have hhead : (streamContentRun ⟨false⟩
        (fun _ => ⟨200, [⟨[⟨some "<think>a</think>b".toList, false⟩], none⟩]⟩)
        "m".toList [] true true true false []).2.1.head? = some .openDelim := by
      rw [h1]; rfl
    have htext : ∃ c, Emit.chunk (.text c) ∈ (streamContentRun ⟨false⟩
        (fun _ => ⟨200, [⟨[⟨some "<think>a</think>b".toList, false⟩], none⟩]⟩)
        "m".toList [] true true true false []).2.1 :=
      ⟨"b".toList, by rw [h1]; simp⟩
    have hcount : (streamContentRun ⟨false⟩
        (fun _ => ⟨200, [⟨[⟨some "<think>a</think>b".toList, false⟩], none⟩]⟩)
        "m".toList [] true true true false []).2.1.count .closeDelim = 0 := by
      rw [h1]
      simp [List.count_cons, List.count_append, htc0]
    have := h ⟨false⟩
      (fun _ => ⟨200, [⟨[⟨some "<think>a</think>b".toList, false⟩], none⟩]⟩)
      "m".toList [] [] true true true false hhead htext
    rw [hcount] at this
    cases this
  · have h2 : (streamContentRun ⟨false⟩ (fun _ => ⟨200, []⟩) "m".toList []
        true true true false []).2.1 =
        Emit.openDelim ::
          ((chunkify (fullReasoningText (requestPreview []))).map
            (fun c => Emit.chunk (StreamChunk.thinking_content c)) ++ []) := by
      rw [show (streamContentRun ⟨false⟩ (fun _ => ⟨200, []⟩) "m".toList []
          true true true false []).2.1 =
        generateReasoningOutput [] true ++ performStreamBody true false [] from by
        simp only [streamContentRun,
          performStreamRequest_ok ⟨false⟩ (fun _ => ⟨200, []⟩)
            ⟨"m".toList, []⟩ ((true && true && !false) && true) (false && true)
            (some "m".toList) [] rfl]
        norm_num]
      simp [generateReasoningOutput, performStreamBody, processEvents]
    constructor
    · rw [h2]; rfl
    · rw [h2]
      simp [List.count_cons, List.count_append, htc0]
  · have hbody3 : performStreamBody true false
        [⟨[⟨some ['x'], false⟩], none⟩] =
        [.closeDelim, .chunk (.text ['x'])] := by decide
    have hmap : autoSwitchModelMap
        ['g', 'e', 'm', 'i', 'n', 'i', '-', '2', '.', '5', '-', 'p', 'r', 'o'] =
        some ['g', 'e', 'm', 'i', 'n', 'i', '-', '2', '.', '5', '-', 'f',
          'l', 'a', 's', 'h'] := by decide
    have hst429 : statusOk 429 = false := by decide
    have hrl429 : isRateLimitStatus 429 = true := by decide
    have hst200 : statusOk 200 = true := by decide
    have h3 : (streamContentRun ⟨true⟩
        (fun k => if k = 0 then ⟨429, []⟩
          else ⟨200, [⟨[⟨some "x".toList, false⟩], none⟩]⟩)
        "gemini-2.5-pro".toList [] true true true false []).2.1 =
        Emit.openDelim ::
          ((chunkify (fullReasoningText (requestPreview []))).map
            (fun c => Emit.chunk (StreamChunk.thinking_content c)) ++
           (.chunk (.text (createSwitchNotification "gemini-2.5-pro".toList
              "gemini-2.5-flash".toList)) ::
            [.closeDelim, .chunk (.text "x".toList)])) := by
      simp [streamContentRun, performStreamRequest, performStreamRequestF,
        hst429, hrl429, hmap, hst200, generateReasoningOutput, hbody3]
    refine ⟨(chunkify (fullReasoningText (requestPreview []))).map
        (fun c => Emit.chunk (StreamChunk.thinking_content c)),
      [.closeDelim, .chunk (.text "x".toList)], h3, ?_, ?_⟩
    · intro hmem
      exact (tcchunk_props _ _ hmem).2.2 rfl
    · rw [h3]
      simp [List.count_cons, List.count_append, htc0]

/-- Instantiation of the C1 bound at a concrete configuration. -/
theorem thinking_delimiters_at_most_once_witness :
    ((streamContentRun ⟨false⟩ (fun _ => ⟨200, []⟩) "m".toList []
        true true true false []).2.1.count .openDelim ≤ 1) ∧
    ((streamContentRun ⟨false⟩ (fun _ => ⟨200, []⟩) "m".toList []
        true true true false []).2.1.count .closeDelim ≤ 1) :=
  thinking_delimiters_at_most_once ⟨false⟩ (fun _ => ⟨200, []⟩) "m".toList []
    true true true false []

/-- Instantiation of the amended C3 statement at a concrete stream. -/
theorem role_announcement_on_first_content_chunk_witness :
    ((createOpenAIStreamTransformer [] 0 [] [.text "hi".toList]).countP
        hasRoleItem ≤ 1) ∧
    (∀ p c q, createOpenAIStreamTransformer [] 0 [] [.text "hi".toList] =
        p ++ .chunk c :: q →
      c.delta.role.isSome = true →
      c.delta.content.isSome = true ∧ ∀ item ∈ p, hasContentItem item = false) ∧
    ((∃ item ∈ createOpenAIStreamTransformer [] 0 [] [.text "hi".toList],
        hasContentItem item = true) →
      (createOpenAIStreamTransformer [] 0 [] [.text "hi".toList]).countP
        hasRoleItem = 1) :=
  role_announcement_on_first_content_chunk [] 0 [] [.text "hi".toList]

/-- Instantiation of the C7 read-boundary independence at concrete reads. -/
theorem sse_reassembly_read_boundary_independent_witness :
    parseSSEStream (fun s => if s = ['1'] then some 1 else none)
      [sseDataMarker, ['1'], ['\n', '\n']] =
    parseSSEStream (fun s => if s = ['1'] then some 1 else none)
      [[sseDataMarker, ['1'], ['\n', '\n']].flatten] :=
  sse_reassembly_read_boundary_independent _ _

end GeminiWorker
